import Mathlib

/-!
Verification of the voyager node core against its natural-language
specification.

The development shallowly embeds the relevant parts of the source:

* `pkg/kademlia` (topology manager): depth recalculation, bin saturation,
  closest-peer selection, connect retry/backoff and address-book pruning,
  balanced-prefix pseudo-address generation;
* `pkg/hive`: peer-gossip batching;
* `pkg/ifi`: signed peer-record parsing;
* `pkg/netstore`: local store + retrieval + recovery composition;
* `pkg/localstore`: `getMulti` access-mode side effects;
* `pkg/file`: `ChunkPipe` re-chunking writer.

Collaborator packages that are not part of the source tree
(`pkg/kademlia/pslice`, the `infinity` address algebra, `pkg/crypto`,
`pkg/shed`, `pkg/sctx`, `pkg/retrieval`) are modelled from the
specification text; each such definition carries a doc comment starting
with `Modelled from the spec:`.

Addresses are modelled as natural numbers (`infinity.Address` is a
32-byte value; XOR distance and bit operations are on `Nat`), byte
arrays as `List Nat` with every element below 256.
-/

namespace Voyager

/-! ## Kademlia constants (pkg/kademlia, const block) -/

/-- Source constant `nnLowWatermark = 2`: the number of peers in
consecutive deepest bins that constitute nearest neighbours. -/
def nnLowWatermark : Nat := 2

/-- Source constant `maxConnAttempts = 3`. -/
def maxConnAttempts : Nat := 3

/-- Source constant `saturationPeers = 4`. -/
def saturationPeers : Nat := 4

/-- Source constant `overSaturationPeers = 16`. -/
def overSaturationPeers : Nat := 16

/-- Modelled from the spec: `MaxPO` — the spec caps proximity at
`MaxPO ≤ 31`; the test suite fixes `infinity.MaxPO = 15`
(`MaxBins = 16`), which we adopt. -/
def maxPO : Nat := 15

/-- Modelled from the spec: `MaxBins = MaxPO + 1 = 16` proximity bins. -/
def maxBins : Nat := 16

/-- Source variable `timeToRetry = 60 * time.Second`, in seconds. -/
def timeToRetry : Nat := 60

/-- Source variable `shortRetry = 30 * time.Second`, in seconds. -/
def shortRetry : Nat := 30

/-! ## PSlice model

`pkg/kademlia/pslice` is not in the source tree.  Modelled from the
spec: "`connected_peers` and `known_peers` are each logically a sequence
of sets of overlay addresses indexed by PO ∈ [0, MaxPO] ... iteration
must be deterministic closest-bin-first (`EachBin`) or
farthest-bin-first (`EachBinRev`). `Length()` returns total count."

A `PSlice` is therefore a list of bins, index = proximity order; bin 0
is the farthest bin, deeper bins have higher index. -/

/-- A bin-indexed peer structure: entry `i` is the list of peers whose
proximity order with the base address is `i`. -/
abbrev PSlice := List (List Nat)

/-- Tags every peer with the index of its bin, starting at `i`. -/
def tagPo (i : Nat) : List (List Nat) → List (List (Nat × Nat))
  | [] => []
  | b :: rest => b.map (fun a => (a, i)) :: tagPo (i + 1) rest

/-- Modelled from the spec: `Length()` returns the total number of
peers over all bins. -/
def pLength (bins : PSlice) : Nat := (bins.map List.length).sum

/-- Modelled from the spec: the peer/po enumeration produced by
`EachBin` — deterministic closest-bin-first, i.e. deepest (highest
index) bin first. -/
def eachBinPairs (bins : PSlice) : List (Nat × Nat) :=
  ((tagPo 0 bins).reverse).flatten

/-- Modelled from the spec: the peer/po enumeration produced by
`EachBinRev` — farthest-bin-first, i.e. bin 0 first. -/
def eachBinRevPairs (bins : PSlice) : List (Nat × Nat) :=
  (tagPo 0 bins).flatten

/-- Modelled from the spec: `ShallowestEmpty` returns the lowest PO
whose bin holds zero peers, or nothing when no bin is empty. -/
def shallowestEmpty : PSlice → Option Nat
  | [] => none
  | b :: rest => if b.isEmpty then some 0 else (shallowestEmpty rest).map (· + 1)

/-! ## recalcDepth (pkg/kademlia, function recalcDepth) -/

/-- The `EachBin` walk inside `recalcDepth`: increments the peer
counter and, at the peer where the counter first reaches
`nnLowWatermark`, stops with that peer's po (candidate starts at 0). -/
def findCand : List (Nat × Nat) → Nat → Nat
  | [], _ => 0
  | p :: rest, ctr =>
      if ctr + 1 ≥ nnLowWatermark then p.2 else findCand rest (ctr + 1)

/-- Source `recalcDepth(peers *pslice.PSlice) uint8`: returns 0 when
`peers.Length() <= nnLowWatermark`; otherwise walks `EachBin` for the
candidate, takes `ShallowestEmpty`, and returns the candidate when
there is no empty bin or the shallowest empty bin is deeper than the
candidate, else the shallowest empty bin. -/
def recalcDepth (peers : PSlice) : Nat :=
  if pLength peers ≤ nnLowWatermark then 0
  else
    let candidate := findCand (eachBinPairs peers) 0
    match shallowestEmpty peers with
    | none => candidate
    | some se => if se > candidate then candidate else se

/-- The depth formula exactly as the specification words it: 0 when
fewer than `nnLow = 2` peers are connected, otherwise
`min(shallowest_empty, candidate)` with `shallowest_empty = MaxPO + 1`
when no bin is empty. -/
def specDepth (peers : PSlice) : Nat :=
  if pLength peers < nnLowWatermark then 0
  else
    let se := match shallowestEmpty peers with
      | none => maxPO + 1
      | some s => s
    min se (findCand (eachBinPairs peers) 0)

/-! ## binSaturated (pkg/kademlia, function binSaturated) -/

/-- The `EachBin` walk inside `binSaturated`: counts the connected
peers whose po equals `bin` (`if po == bin { size++ }`). -/
def binSize (connected : PSlice) (bin : Nat) : Nat :=
  (eachBinPairs connected).foldl (fun size p => if p.2 = bin then size + 1 else size) 0

/-- Source `binSaturated(bin, peers, connected) (bool, bool)`:
recomputes a potential depth from its `peers` argument (the known-peers
slice at every call site), short-circuits to `(false, false)` for
`bin >= potentialDepth`, and otherwise compares the connected count in
the bin against `saturationPeers` and `overSaturationPeers`. -/
def binSaturated (bin : Nat) (peers connected : PSlice) : Bool × Bool :=
  let potentialDepth := recalcDepth peers
  if bin ≥ potentialDepth then (false, false)
  else
    let size := binSize connected bin
    (decide (size ≥ saturationPeers), decide (size ≥ overSaturationPeers))

/-! ## ClosestPeer (pkg/kademlia, method Kad.ClosestPeer)

The `infinity` address algebra is not in the source tree. -/

/-- Modelled from the spec: `distance(a,b)` is bitwise XOR interpreted
as a 256-bit unsigned integer; addresses are modelled as `Nat`. -/
def dist (a b : Nat) : Nat := a ^^^ b

/-- Modelled from the spec: `distance_cmp(t,x,y)` orders candidates by
closeness to `t`.  The sign convention is fixed by the source comments
in `Kad.ClosestPeer` (`case -1: current peer is closer`, acting on
`DistanceCmp(addr, closest, peer)`): the result is 1 when `x` is
closer to `t` than `y`, 0 on the same distance, and -1 when `y` is
closer. -/
def distanceCmp (t x y : Nat) : Int :=
  if t ^^^ x < t ^^^ y then 1 else if t ^^^ x = t ^^^ y then 0 else -1

/-- Result of `Kad.ClosestPeer`: an overlay, `topology.ErrWantSelf`,
or `topology.ErrNotFound`. -/
inductive ClosestRes where
  | notFound : ClosestRes
  | wantSelf : ClosestRes
  | peer (a : Nat) : ClosestRes
deriving DecidableEq, Repr

/-- One iteration of the `EachBinRev` callback in `Kad.ClosestPeer`:
skip peers on the skip list, skip (and schedule for disconnect) peers
missing from the p2p service's peer list, otherwise keep whichever of
the incumbent and the peer is closer to `addr`. -/
def closestStep (addr : Nat) (skip p2pPeers : List Nat) (closest peer : Nat) : Nat :=
  if peer ∈ skip then closest
  else if peer ∉ p2pPeers then closest
  else if distanceCmp addr closest peer = -1 then peer else closest

/-- The connected peers in `EachBinRev` (farthest-bin-first) order. -/
def connectedAddrs (connected : PSlice) : List Nat :=
  (eachBinRevPairs connected).map Prod.fst

/-- The connected peers that are not on the skip list. -/
def eligiblePeers (connected : PSlice) (skip : List Nat) : List Nat :=
  (connectedAddrs connected).filter (fun p => p ∉ skip)

/-- Source `Kad.ClosestPeer(addr, skipPeers...)`: `ErrNotFound` when no
peer is connected; otherwise iterates connected peers
farthest-bin-first starting from the base address as incumbent and
returns `ErrWantSelf` when the incumbent remains the base address. -/
def closestPeerKad (base addr : Nat) (connected : PSlice)
    (p2pPeers skip : List Nat) : ClosestRes :=
  if pLength connected = 0 then .notFound
  else
    let closest := (connectedAddrs connected).foldl (closestStep addr skip p2pPeers) base
    if closest = base then .wantSelf else .peer closest

/-! ## Connect retry / pruning (pkg/kademlia, method Kad.connect and
the manage loop) -/

/-- Source `retryInfo`: `tryAfter` timestamp (seconds) and
`failedAttempts`. -/
structure RetryInfo where
  tryAfter : Nat
  failedAttempts : Nat
deriving DecidableEq, Repr

/-- The per-peer state touched by the connect failure path: the
`waitNext` entry, address-book membership, known-peers membership, and
a count of `p2p.Connect` calls made for this peer. -/
structure PeerState where
  waitNext : Option RetryInfo
  inAddressBook : Bool
  inKnown : Bool
  connectCalls : Nat
deriving DecidableEq, Repr

/-- A freshly added known peer: no retry entry, present in the address
book and in `known_peers`, no connect attempts yet. -/
def initialPeerState : PeerState := ⟨none, true, true, 0⟩

/-- Source `Kad.connect`, failure branch (the `p2p.Connect` error is
not `ErrAlreadyConnected`): when the error carries a backoff hint
(`ConnectionBackoffError`) the retry time is the hint and the counter
is left at zero, otherwise the stored counter is incremented; a counter
above `maxConnAttempts` deletes the `waitNext` entry and removes the
peer from the address book (not from `known_peers`), else the entry is
rewritten with the new retry time and counter. -/
def connectFailure (now : Nat) (hint : Option Nat) (s : PeerState) : PeerState :=
  let retryTime := match hint with
    | some t => t
    | none => now + timeToRetry
  let failedAttempts := match hint with
    | some _ => 0
    | none => (match s.waitNext with | some i => i.failedAttempts | none => 0) + 1
  if failedAttempts > maxConnAttempts then
    { s with waitNext := none, inAddressBook := false,
             connectCalls := s.connectCalls + 1 }
  else
    { s with waitNext := some ⟨retryTime, failedAttempts⟩,
             connectCalls := s.connectCalls + 1 }

/-- Source manage loop, a failed `connect` call together with the
loop's epilogue on the error path: after `connect` returns an error the
loop re-adds a `waitNext` entry `{tryAfter: now + timeToRetry}` (with a
zero-valued counter) when `connect` left none behind — "don't override
existing data in the map".  In particular the pruning failure, which
deletes the entry inside `connect`, leaves the peer with a re-armed
`timeToRetry` window and counter 0. -/
def manageConnectFail (now : Nat) (hint : Option Nat) (s : PeerState) : PeerState :=
  let s1 := connectFailure now hint s
  match s1.waitNext with
  | some _ => s1
  | none => { s1 with waitNext := some ⟨now + timeToRetry, 0⟩ }

/-- Source manage loop, bin-filling pass, restricted to one
non-connectable known peer: skip when not known or when the retry
window has not elapsed; on a missing address-book entry
(`addressbook.ErrNotFound`) remove the peer from `known_peers`
(`errMissingAddressBookEntry` handling); otherwise call `connect`,
which fails, followed by the loop's `waitNext` re-add epilogue. -/
def manageAttempt (now : Nat) (hint : Option Nat) (s : PeerState) : PeerState :=
  if ¬ s.inKnown then s
  else if (match s.waitNext with
    | some i => decide (now < i.tryAfter)
    | none => false) then s
  else if ¬ s.inAddressBook then { s with inKnown := false }
  else manageConnectFail now hint s

/-- The state of a known peer after a sequence of generic
(`hint`-free) connect failures at the given times, as the manage loop
leaves it: each `connect` failure is followed by the loop's `waitNext`
re-add epilogue. -/
def failTrajectory (ts : List Nat) : PeerState :=
  ts.foldl (fun s t => manageConnectFail t none s) initialPeerState

/-! ## Balanced-prefix pseudo-addresses
(pkg/kademlia, method Kad.generateCommonBinPrefixes) -/

/-- Source constant `defaultBitSuffixLength = 2`. -/
def defaultBitSuffixLength : Nat := 2

/-- Source `setBit`: sets the bit at `pos` in the byte `n`. -/
def setBit (n pos : Nat) : Nat := n ||| (1 <<< pos)

/-- Source `clearBit`: `mask := ^(1 << pos); n &= mask` on a uint8. -/
def clearBit (n pos : Nat) : Nat := n &&& (255 ^^^ (1 <<< pos))

/-- Source `hasBit`: `n & (1 << pos) > 0`. -/
def hasBit (n pos : Nat) : Bool := decide (n &&& (1 <<< pos) > 0)

/-- Go `bits.Reverse8`: the byte with its 8 bits in reversed order. -/
def reverse8 (n : Nat) : Nat :=
  (List.range 8).foldl (fun acc k => if n.testBit k then acc ||| (1 <<< (7 - k)) else acc) 0

/-- One `pseudoAddrBytes[index] = bits.Reverse8(setBit(bits.Reverse8(b), pos))`
store at absolute bit position `l` (`index, pos := l/8, l%8`). -/
def setAddrBit (a : List Nat) (l : Nat) : List Nat :=
  a.set (l / 8) (reverse8 (setBit (reverse8 (a.getD (l / 8) 0)) (l % 8)))

/-- The clearing counterpart of `setAddrBit`. -/
def clearAddrBit (a : List Nat) (l : Nat) : List Nat :=
  a.set (l / 8) (reverse8 (clearBit (reverse8 (a.getD (l / 8) 0)) (l % 8)))

/-- Source "flip first bit for bin": clear the bit at position `i`
when set, set it otherwise. -/
def flipAddrBit (a : List Nat) (i : Nat) : List Nat :=
  if hasBit (reverse8 (a.getD (i / 8) 0)) (i % 8) then clearAddrBit a i else setAddrBit a i

/-- Source "set pseudo suffix" loop
(`for l := i+1; l < i+bitSuffixLength+1; l++` with `bitSuffixPos`
counting down from `bitSuffixLength-1`): writes the bits of the
enumeration index `j` after position `i`. -/
def setSuffixBits (bsl i j : Nat) (a : List Nat) : List Nat :=
  (List.range' (i + 1) bsl).foldl
    (fun a l =>
      if hasBit j (bsl - 1 - (l - (i + 1))) then setAddrBit a l else clearAddrBit a l) a

/-- Source "clear rest of the bits" loop
(`for l := i+bitSuffixLength+1; l < len(pseudoAddrBytes)*8; l++`). -/
def clearRestBits (bsl i : Nat) (a : List Nat) : List Nat :=
  (List.range' (i + bsl + 1) (a.length * 8 - (i + bsl + 1))).foldl
    (fun a l => clearAddrBit a l) a

/-- Source `generateCommonBinPrefixes` entry `[i][j]`: the base address
copied, bit `i` flipped, the next `bitSuffixLength` bits written from
`j`, and all remaining bits cleared. -/
def commonBinPseudoAddr (bsl : Nat) (base : List Nat) (i j : Nat) : List Nat :=
  clearRestBits bsl i (setSuffixBits bsl i j (flipAddrBit base i))

/-- Bit `l` of a byte-array address, most-significant bit first within
each byte. -/
def addrBit (a : List Nat) (l : Nat) : Bool := (a.getD (l / 8) 0).testBit (7 - l % 8)

/-- The index of the first bit (from `k`, within `fuel` steps) where
two addresses differ. -/
def matchLen (a b : List Nat) : Nat → Nat → Nat
  | k, 0 => k
  | k, fuel + 1 => if addrBit a k = addrBit b k then matchLen a b (k + 1) fuel else k

/-- Modelled from the spec: `proximity(a,b)` is the number of matching
most-significant bits of two 32-byte addresses, capped at `MaxPO`. -/
def proximity (a b : List Nat) : Nat := min maxPO (matchLen a b 0 256)

/-- Every byte of the address is an actual byte value. -/
def validBytes (a : List Nat) : Prop := ∀ x ∈ a, x < 256

/-! ## Hive peer gossip (pkg/hive/hive.go) -/

/-- Source constant `maxBatchSize = 30`. -/
def maxBatchSize : Nat := 30

/-- Source `Service.BroadcastPeers` loop: while peers remain, clamp the
mutable `max` to the remaining length, send `peers[:max]` as one
message, and continue with `peers[max:]`.  The fuel argument (the
initial list length suffices) totalizes the recursion; the loop always
consumes at least one peer per iteration because `max` starts at
`maxBatchSize ≥ 1` and is only ever clamped down to a positive
remaining length. -/
def sendLoop : Nat → Nat → List Nat → List (List Nat)
  | 0, _, _ => []
  | _ + 1, _, [] => []
  | fuel + 1, mx, p :: ps =>
      let m := if mx > (p :: ps).length then (p :: ps).length else mx
      (p :: ps).take m :: sendLoop fuel m ((p :: ps).drop m)

/-- The batches `BroadcastPeers` hands to `sendPeers`, in order. -/
def broadcastBatches (peers : List Nat) : List (List Nat) :=
  sendLoop peers.length maxBatchSize peers

/-- Source `Service.sendPeers`: the records of one `Peers` message —
each batch entry is looked up in the address book and entries that are
missing (`addressbook.ErrNotFound`) are skipped. -/
def sendPeersRecords {β : Type} (book : Nat → Option β) (batch : List Nat) : List β :=
  batch.filterMap book

/-! ## Netstore (pkg/netstore) -/

/-- A chunk: address and data. -/
structure Chunk where
  address : Nat
  data : List Nat
deriving DecidableEq, Repr

/-- Error values observable from `netstore.store.Get`:
`storage.ErrNotFound`, `netstore.ErrRecoveryAttempt`, other collaborator
errors, and the two `fmt.Errorf` wrappings in the source. -/
inductive NErr where
  | notFound : NErr
  | recoveryAttempt : NErr
  | other (code : Nat) : NErr
  | wrapGet (e : NErr) : NErr
  | wrapPut (e : NErr) : NErr
deriving DecidableEq, Repr

/-- Side effects `netstore.store.Get` can issue: a
`Put(ModePutRequest)` into the wrapped store and an asynchronous
recovery-callback invocation with `(addr, targets)`. -/
inductive NetEffect where
  | putRequest (ch : Chunk) : NetEffect
  | scheduleRecovery (addr : Nat) (targets : List Nat) : NetEffect
deriving DecidableEq, Repr

/-- Source `netstore.store.Get`, with the collaborators as oracles:
`localResult` is the wrapped `Storer.Get` outcome, `retrievalOutcome`
the `retrieval.RetrieveChunk` outcome (modelled from the spec: on a
network miss retrieval fails with the not-found sentinel, so the
`return nil, err` on the recovery-less path surfaces `NotFound`),
`targets` is `sctx.GetTargets(ctx)` (`none` when the context carries no
recovery targets), `hasCallback` whether a recovery callback is
registered, and `putResult` the `Storer.Put(ModePutRequest)` outcome.
Returns the result and the list of issued effects. -/
def netstoreGet (addr : Nat) (localResult : Except NErr Chunk)
    (retrievalOutcome : Option Chunk) (targets : Option (List Nat))
    (hasCallback : Bool) (putResult : Except NErr Unit) :
    Except NErr Chunk × List NetEffect :=
  match localResult with
  | .ok ch => (.ok ch, [])
  | .error e =>
      if e = .notFound then
        match retrievalOutcome with
        | some ch =>
            match putResult with
            | .ok _ => (.ok ch, [.putRequest ch])
            | .error pe => (.error (.wrapPut pe), [.putRequest ch])
        | none =>
            match targets, hasCallback with
            | some tg, true => (.error .recoveryAttempt, [.scheduleRecovery addr tg])
            | _, _ => (.error .notFound, [])
      else (.error (.wrapGet e), [])

/-! ## Localstore getMulti (pkg/localstore/mode_get_multi.go)

`pkg/shed` and `pkg/storage` are not in the source tree; the index
family and `Fill` are modelled from the spec's chunk-store key layout
("Retrieval index: address → data, access-timestamp; Push index;
Pin index: address → counter; GC index: eviction order"). -/

/-- Association-list lookup, keyed by address. -/
def lookupA {β : Type} (m : List (Nat × β)) (k : Nat) : Option β :=
  (m.find? (fun e => e.1 == k)).map Prod.snd

/-- Association-list update/insert, keyed by address. -/
def setA {β : Type} (m : List (Nat × β)) (k : Nat) (v : β) : List (Nat × β) :=
  (k, v) :: m.filter (fun e => e.1 ≠ k)

/-- The `shed.Item` fields `getMulti` touches. -/
structure Item where
  address : Nat
  data : List Nat
  accessTimestamp : Nat
  pinCounter : Nat
deriving DecidableEq, Repr

/-- Modelled from the spec: the localstore index family — retrieval
data (address → data), access timestamps, GC index, pin counters and
the push index. -/
structure DBState where
  retrieval : List (Nat × List Nat)
  access : List (Nat × Nat)
  gc : List (Nat × Nat)
  pin : List (Nat × Nat)
  push : List (Nat × Nat)
deriving DecidableEq, Repr

/-- The four `storage.ModeGet` access modes. -/
inductive ModeGet where
  | request : ModeGet
  | sync : ModeGet
  | lookup : ModeGet
  | pin : ModeGet
deriving DecidableEq, Repr

/-- Modelled from the spec: `retrievalDataIndex.Fill` — reads each
requested address from the retrieval index, failing with
`leveldb.ErrNotFound` when one is missing. -/
def fillRetrieval (db : DBState) : List Nat → Except Unit (List Item)
  | [] => .ok []
  | a :: rest =>
      match lookupA db.retrieval a with
      | none => .error ()
      | some d =>
          match fillRetrieval db rest with
          | .error e => .error e
          | .ok items => .ok (⟨a, d, 0, 0⟩ :: items)

/-- Modelled from the spec: `pinIndex.Fill` — fills each returned
item's pin counter from the pin index, failing when an entry is
missing. -/
def fillPin (db : DBState) : List Item → Except Unit (List Item)
  | [] => .ok []
  | it :: rest =>
      match lookupA db.pin it.address with
      | none => .error ()
      | some c =>
          match fillPin db rest with
          | .error e => .error e
          | .ok items => .ok (⟨it.address, it.data, it.accessTimestamp, c⟩ :: items)

/-- Modelled from the spec: `db.updateGCItems` — Request mode touches
the access timestamp and the GC index entry of each returned chunk and
nothing else. -/
def updateGCItems (now : Nat) (items : List Item) (db : DBState) : DBState :=
  items.foldl (fun db it =>
    { db with access := setA db.access it.address now,
              gc := setA db.gc it.address now }) db

/-- Source `DB.getMulti(mode, addrs...)`: read the requested items from
the retrieval index, then dispatch on the mode — `Request` updates the
access timestamp and GC index, `Pin` additionally fills the pin
counters, `Sync` and `Lookup` update no indexes. -/
def getMulti (mode : ModeGet) (addrs : List Nat) (now : Nat) (db : DBState) :
    Except Unit (List Item) × DBState :=
  match fillRetrieval db addrs with
  | .error e => (.error e, db)
  | .ok items =>
      match mode with
      | .request => (.ok items, updateGCItems now items db)
      | .pin =>
          match fillPin db items with
          | .error e => (.error e, db)
          | .ok items2 => (.ok items2, db)
      | .sync => (.ok items, db)
      | .lookup => (.ok items, db)

/-! ## ChunkPipe (pkg/file/buffer.go) -/

/-- Modelled from the spec: `infinity.ChunkSize = 4096` (payloads are
at most 4096 bytes). -/
def chunkSize : Nat := 4096

/-- Source constant `maxBufferSize = infinity.ChunkSize * 2`. -/
def maxBufferSize : Nat := chunkSize * 2

/-- Source `ChunkPipe.Write` loop: copy as much of the remaining input
as fits behind the cursor (`copy(c.data[c.cursor:], b[nw:])`), and
whenever the cursor reaches `ChunkSize` flush `data[:ChunkSize]` to the
pipe and shift the tail down; the loop ends when the input is consumed.
`data` is the buffered prefix (its length is the cursor); the result is
the list of flushed segments and the new buffer.  The `copied = 0`
fallback is unreachable under the cursor invariant
(`data.length ≤ chunkSize < maxBufferSize`) and only makes the
recursion total. -/
def writeLoop (data b : List Nat) : List (List Nat) × List Nat :=
  if _hb : b = [] then ([], data)
  else
    let copied := min (maxBufferSize - data.length) b.length
    if _hc : copied = 0 then ([], data)
    else
      let data2 := data ++ b.take copied
      let rest := b.drop copied
      if chunkSize ≤ data2.length then
        let r := writeLoop (data2.drop chunkSize) rest
        (data2.take chunkSize :: r.1, r.2)
      else
        writeLoop data2 rest
  termination_by b.length
  decreasing_by
  all_goals
    simp only [List.length_drop]
    have h1 : 0 < b.length := List.length_pos.mpr _hb
    omega

/-- Source `ChunkPipe.Close`: flush the buffered bytes (if any) as the
final segment. -/
def closeFlush (data : List Nat) : List (List Nat) :=
  if data.length > 0 then [data] else []

/-- The writer state after a sequence of `Write` calls starting from an
empty buffer: the flushed segments in order, and the remaining buffer. -/
def runWrites (ws : List (List Nat)) : List (List Nat) × List Nat :=
  ws.foldl (fun acc w =>
    let q := writeLoop acc.2 w
    (acc.1 ++ q.1, q.2)) ([], [])

/-- Everything the underlying pipe receives from a sequence of writes
followed by `Close`. -/
def chunkPipeDelivered (ws : List (List Nat)) : List (List Nat) :=
  (runWrites ws).1 ++ closeFlush (runWrites ws).2

/-! ## Signed peer records (pkg/ifi) -/

/-- Modelled from the spec: a recoverable ECDSA signature, idealized as
the signing key paired with the signed payload (the source treats
signatures as opaque bytes handed to `crypto.Recover`). -/
structure Sig where
  signer : Nat
  payload : List Nat
deriving DecidableEq, Repr

/-- Modelled from the spec: `crypto.Signer.Sign` produces a recoverable
signature over the data; public keys are identified with private keys
in the idealization. -/
def sign (sk : Nat) (data : List Nat) : Sig := ⟨sk, data⟩

/-- Modelled from the spec: `crypto.Recover` — verifying against the
signed payload recovers the signer's public key; against any other
payload recovery fails. -/
def recover (sig : Sig) (data : List Nat) : Option Nat :=
  if data = sig.payload then some sig.signer else none

/-- Modelled from the spec: `crypto.NewOverlayAddress` deterministically
re-derives the overlay address from a public key and the network id. -/
def newOverlayAddress (pk networkID : Nat) : List Nat := [pk, networkID]

/-- Big-endian 8-byte encoding (`binary.BigEndian.PutUint64`). -/
def u64be (n : Nat) : List Nat :=
  [n / 2 ^ 56 % 256, n / 2 ^ 48 % 256, n / 2 ^ 40 % 256, n / 2 ^ 32 % 256,
   n / 2 ^ 24 % 256, n / 2 ^ 16 % 256, n / 2 ^ 8 % 256, n % 256]

/-- The ASCII bytes of the literal `"voyager-handshake-"`. -/
def handshakeMagic : List Nat :=
  [118, 111, 121, 97, 103, 101, 114, 45, 104, 97, 110, 100, 115, 104, 97, 107, 101, 45]

/-- Source `generateSignData`:
`"voyager-handshake-" || underlay || overlay || u64_be(networkID)`. -/
def generateSignData (underlay overlay : List Nat) (networkID : Nat) : List Nat :=
  handshakeMagic ++ underlay ++ overlay ++ u64be networkID

/-- Source `NewAddress`: sign the handshake payload for the given
underlay, overlay and network id. -/
def newAddress (sk : Nat) (underlay overlay : List Nat) (networkID : Nat) : Sig :=
  sign sk (generateSignData underlay overlay networkID)

/-- Result of `ParseAddress`: the parsed record (overlay, underlay,
signature) or `ErrInvalidAddress`. -/
inductive ParseRes where
  | ok (overlay underlay : List Nat) (signature : Sig) : ParseRes
  | invalidAddress : ParseRes
deriving DecidableEq, Repr

/-- Source `ParseAddress(underlay, overlay, signature, networkID)`:
recover a public key from the signature over `generateSignData`,
re-derive the overlay from it, compare byte-for-byte with the given
overlay, parse the underlay as a multiaddr (`maValid` models the
external multiaddr library), and on success return a record carrying
exactly the given overlay, underlay and signature; every failure is
`ErrInvalidAddress`. -/
def parseAddress (maValid : List Nat → Bool) (underlay overlay : List Nat)
    (signature : Sig) (networkID : Nat) : ParseRes :=
  match recover signature (generateSignData underlay overlay networkID) with
  | none => .invalidAddress
  | some pk =>
      if newOverlayAddress pk networkID ≠ overlay then .invalidAddress
      else if ¬ maValid underlay then .invalidAddress
      else .ok overlay underlay signature

/-! ### Supporting lemmas for the depth equivalence -/

theorem tagPo_po_bounds (i : Nat) (bins : List (List Nat)) :
    ∀ p ∈ (tagPo i bins).flatten, i ≤ p.2 ∧ p.2 < i + bins.length := by
  induction bins generalizing i with
  | nil => intro p hp; simp [tagPo] at hp
  | cons b rest ih =>
      intro p hp
      simp only [tagPo, List.flatten_cons, List.mem_append] at hp
      rcases hp with hp | hp
      · rcases List.mem_map.mp hp with ⟨a, _, rfl⟩
        exact ⟨le_rfl, by rw [List.length_cons]; omega⟩
      · have := ih (i + 1) p hp
        rw [List.length_cons]
        omega

theorem length_tagPo_flatten (i : Nat) (bins : List (List Nat)) :
    ((tagPo i bins).flatten).length = (bins.map List.length).sum := by
  induction bins generalizing i with
  | nil => simp [tagPo]
  | cons b rest ih => simp [tagPo, ih]

theorem length_eachBinPairs (bins : PSlice) :
    (eachBinPairs bins).length = pLength bins := by
  unfold eachBinPairs pLength
  rw [List.length_flatten, List.map_reverse, List.sum_reverse,
    ← List.length_flatten, length_tagPo_flatten]

theorem eachBinPairs_po_lt (bins : PSlice) :
    ∀ p ∈ eachBinPairs bins, p.2 < bins.length := by
  intro p hp
  unfold eachBinPairs at hp
  rw [List.mem_flatten] at hp
  rcases hp with ⟨l, hl, hpl⟩
  rw [List.mem_reverse] at hl
  have : p ∈ (tagPo 0 bins).flatten := List.mem_flatten.mpr ⟨l, hl, hpl⟩
  have h := tagPo_po_bounds 0 bins p this
  omega

theorem findCand_zero_or_mem (l : List (Nat × Nat)) (ctr : Nat) :
    findCand l ctr = 0 ∨ ∃ p ∈ l, findCand l ctr = p.2 := by
  induction l generalizing ctr with
  | nil => left; rfl
  | cons p rest ih =>
      by_cases h : ctr + 1 ≥ nnLowWatermark
      · right; exact ⟨p, List.mem_cons_self _ _, by simp [findCand, h]⟩
      · rcases ih (ctr + 1) with h0 | ⟨q, hq, he⟩
        · left; simpa [findCand, h] using h0
        · right; exact ⟨q, List.mem_cons_of_mem _ hq, by simpa [findCand, h] using he⟩

theorem findCand_lt (bins : PSlice) (h16 : bins.length = 16) :
    findCand (eachBinPairs bins) 0 < 16 := by
  rcases findCand_zero_or_mem (eachBinPairs bins) 0 with h | ⟨p, hp, he⟩
  · omega
  · have := eachBinPairs_po_lt bins p hp
    omega

theorem eachBinPairs_cons (b : List Nat) (rest : List (List Nat)) :
    eachBinPairs (b :: rest)
      = (tagPo 1 rest).reverse.flatten ++ b.map (fun a => (a, 0)) := by
  unfold eachBinPairs
  simp [tagPo]

theorem findCand_pair (p q : Nat × Nat) : findCand [p, q] 0 = q.2 := by
  simp [findCand, nnLowWatermark]

/-- With exactly two connected peers the spec formula already yields
depth 0: either bin 0 is empty (shallowest empty = 0) or the
closest-bin-first walk reaches its second — and last — peer inside
bin 0 (candidate = 0). -/
theorem specDepth_zero_of_two (bins : PSlice) (h2 : pLength bins = nnLowWatermark) :
    specDepth bins = 0 := by
  unfold specDepth
  rw [if_neg (by omega)]
  rw [Nat.min_eq_zero_iff]
  cases bins with
  | nil => simp [pLength, nnLowWatermark] at h2
  | cons b rest =>
      by_cases hb : b.isEmpty
      · left
        simp [shallowestEmpty, hb]
      · right
        have hlen : (eachBinPairs (b :: rest)).length = 2 := by
          rw [length_eachBinPairs, h2]; rfl
        rw [eachBinPairs_cons] at hlen ⊢
        have hblen : b.length ≥ 1 := by
          cases b with
          | nil => simp at hb
          | cons _ _ => simp
        rw [List.length_append, List.length_map] at hlen
        cases hpre : (tagPo 1 rest).reverse.flatten with
        | nil =>
            rw [hpre] at hlen
            simp only [List.length_nil] at hlen
            rcases List.length_eq_two.mp (by omega : b.length = 2) with ⟨a1, a2, rfl⟩
            simpa using findCand_pair (a1, 0) (a2, 0)
        | cons x t =>
            cases t with
            | nil =>
                rw [hpre] at hlen
                simp only [List.length_cons, List.length_nil] at hlen
                rcases List.length_eq_one.mp (by omega : b.length = 1) with ⟨a1, rfl⟩
                simpa using findCand_pair x (a1, 0)
            | cons y t2 =>
                rw [hpre] at hlen
                simp only [List.length_cons] at hlen
                omega

/-- C1 supporting: the source short-circuit for at most `nnLowWatermark`
connected peers. -/
theorem recalcDepth_of_le (bins : PSlice) (h : pLength bins ≤ nnLowWatermark) :
    recalcDepth bins = 0 := by
  unfold recalcDepth
  rw [if_pos h]

/-- C1: for every connected-peer set, the recomputed neighborhood depth
(`recalcDepth`, stored on connect/disconnect and returned by
`NeighborhoodDepth`) equals the spec formula: 0 when fewer than
`nnLow = 2` peers are connected, else `min(shallowest_empty, candidate)`
with `shallowest_empty = MaxPO + 1` when no bin is empty and `candidate`
the PO of the peer at which the closest-bin-first cumulative count first
reaches 2. -/
theorem claim_C1_recalcDepth_eq_specDepth (bins : PSlice)
    (h16 : bins.length = maxBins) : recalcDepth bins = specDepth bins := by
  by_cases hlt : pLength bins < nnLowWatermark
  · rw [recalcDepth_of_le bins (le_of_lt hlt)]
    unfold specDepth
    rw [if_pos hlt]
  · by_cases heq : pLength bins = nnLowWatermark
    · rw [recalcDepth_of_le bins (le_of_eq heq), specDepth_zero_of_two bins heq]
    · have hc : findCand (eachBinPairs bins) 0 < 16 :=
        findCand_lt bins (by simpa [maxBins] using h16)
      unfold recalcDepth specDepth
      rw [if_neg (by omega), if_neg (by omega)]
      cases hse : shallowestEmpty bins with
      | none =>
          simp only [hse]
          rw [Nat.min_eq_right (by simp [maxPO]; omega)]
      | some se =>
          simp only [hse]
          by_cases h : se > findCand (eachBinPairs bins) 0
          · rw [if_pos h, Nat.min_eq_right (le_of_lt h)]
          · rw [if_neg h, Nat.min_eq_left (by omega)]

/-- C1 witness: a concrete 16-bin peer set — one peer in bins 0 and 1
and two in bin 8 — satisfies the hypothesis, and both sides evaluate
to depth 2 (the shallowest empty bin). -/
theorem claim_C1_witness :
    ([[1], [2], [], [], [], [], [], [], [9, 10], [], [], [], [], [], [], []] :
        PSlice).length = maxBins ∧
      recalcDepth [[1], [2], [], [], [], [], [], [], [9, 10], [], [], [], [], [], [], []]
        = specDepth [[1], [2], [], [], [], [], [], [], [9, 10], [], [], [], [], [], [], []] :=
  ⟨by decide, claim_C1_recalcDepth_eq_specDepth _ (by decide)⟩

/-! ### Bin saturation (C6) -/

theorem binSize_foldl_eq_countP (l : List (Nat × Nat)) (bin acc : Nat) :
    l.foldl (fun size p => if p.2 = bin then size + 1 else size) acc
      = acc + l.countP (fun p => p.2 == bin) := by
  induction l generalizing acc with
  | nil => simp
  | cons p rest ih =>
      by_cases h : p.2 = bin
      · rw [List.foldl_cons, if_pos h, ih, List.countP_cons]
        simp [h]
        omega
      · rw [List.foldl_cons, if_neg h, ih, List.countP_cons]
        simp [h]

theorem countP_tagPo (bin i : Nat) (bins : List (List Nat)) :
    ((tagPo i bins).flatten).countP (fun p => p.2 == bin)
      = if i ≤ bin then (bins.getD (bin - i) []).length else 0 := by
  induction bins generalizing i with
  | nil =>
      simp only [tagPo, List.flatten_nil, List.countP_nil]
      split <;> simp [List.getD]
  | cons b rest ih =>
      simp only [tagPo, List.flatten_cons, List.countP_append]
      rw [ih (i + 1)]
      have hmap : (b.map (fun a => (a, i))).countP (fun p => p.2 == bin)
          = if i = bin then b.length else 0 := by
        rw [List.countP_map]
        by_cases h : i = bin
        · simp [Function.comp, h, List.countP_true]
        · simp [Function.comp, h]
      rw [hmap]
      rcases Nat.lt_trichotomy i bin with hlt | heq | hgt
      · rw [if_neg (by omega), if_pos (by omega), if_pos (by omega)]
        have : bin - i = (bin - (i + 1)) + 1 := by omega
        rw [this, List.getD_cons_succ, Nat.zero_add]
      · rw [if_pos heq, if_neg (by omega), if_pos (by omega)]
        have : bin - i = 0 := by omega
        rw [this, List.getD_cons_zero, Nat.add_zero]
      · rw [if_neg (by omega), if_neg (by omega), if_neg (by omega)]

theorem countP_flatten_reverse {α : Type} (L : List (List α)) (p : α → Bool) :
    (L.reverse.flatten).countP p = (L.flatten).countP p := by
  induction L with
  | nil => rfl
  | cons b rest ih =>
      simp only [List.reverse_cons, List.flatten_append, List.flatten_cons,
        List.countP_append, ih]
      simp [List.countP_append]
      omega

theorem binSize_eq_getD (connected : PSlice) (bin : Nat) :
    binSize connected bin = (connected.getD bin []).length := by
  unfold binSize eachBinPairs
  rw [binSize_foldl_eq_countP, Nat.zero_add, countP_flatten_reverse, countP_tagPo]
  simp

/-- C6 counterexample: the claim reads the short-circuit bound as "the
neighborhood depth" (which C1 fixes as `recalcDepth` of the connected
set), but the source computes the bound from the first argument — the
known-peers slice at every call site.  With four connected peers in
bin 0 the neighborhood depth is 0, so the claim demands
`(false, false)` for bin 0; yet with known peers in bins 0 and 5 the
potential depth is 1 and the source reports bin 0 saturated. -/
theorem claim_C6_counterexample :
    recalcDepth [[4, 5, 6, 7], [], [], [], [], [], [], [], [], [], [], [], [], [], [], []] = 0
    ∧ binSaturated 0
        [[1, 2, 3], [], [], [], [], [100, 101], [], [], [], [], [], [], [], [], [], []]
        [[4, 5, 6, 7], [], [], [], [], [], [], [], [], [], [], [], [], [], [], []]
      = (true, false) := by decide

/-- C6 amended: `binSaturated(bin, known, connected)` returns
`(false, false)` for every bin at or above the potential depth
recomputed from its known-peers argument (not the neighborhood depth of
the connected set); for every shallower bin it returns
`saturated = (connected-in-bin ≥ 4)` and
`oversaturated = (connected-in-bin ≥ 16)`. -/
theorem claim_C6_binSaturated_amended (bin : Nat) (known connected : PSlice) :
    binSaturated bin known connected
      = if bin ≥ recalcDepth known then (false, false)
        else (decide ((connected.getD bin []).length ≥ saturationPeers),
              decide ((connected.getD bin []).length ≥ overSaturationPeers)) := by
  unfold binSaturated
  rw [binSize_eq_getD]

/-! ### Closest peer (C2) -/

theorem distanceCmp_eq_neg_one (t x y : Nat) :
    distanceCmp t x y = -1 ↔ t ^^^ y < t ^^^ x := by
  unfold distanceCmp
  split_ifs with h1 h2 <;> simp <;> omega

theorem closestFold_spec (addr : Nat) (skip p2p : List Nat) (l : List Nat) (c0 : Nat)
    (hcons : ∀ p ∈ l, p ∈ p2p) :
    (l.foldl (closestStep addr skip p2p) c0 = c0
      ∨ (l.foldl (closestStep addr skip p2p) c0 ∈ l.filter (fun p => p ∉ skip)
          ∧ addr ^^^ l.foldl (closestStep addr skip p2p) c0 < addr ^^^ c0))
    ∧ ∀ p ∈ l.filter (fun p => p ∉ skip),
        addr ^^^ l.foldl (closestStep addr skip p2p) c0 ≤ addr ^^^ p := by
  induction l generalizing c0 with
  | nil => simp
  | cons q rest ih =>
      have hq : q ∈ p2p := hcons q (List.mem_cons_self q rest)
      have hrest : ∀ p ∈ rest, p ∈ p2p :=
        fun p hp => hcons p (List.mem_cons_of_mem q hp)
      rw [List.foldl_cons]
      by_cases hskip : q ∈ skip
      · have hstep : closestStep addr skip p2p c0 q = c0 := by
          simp [closestStep, hskip]
        have hfil : (q :: rest).filter (fun p => p ∉ skip)
            = rest.filter (fun p => p ∉ skip) := by
          simp [List.filter_cons, hskip]
        rw [hstep, hfil]
        exact ih c0 hrest
      · have hfil : (q :: rest).filter (fun p => p ∉ skip)
            = q :: rest.filter (fun p => p ∉ skip) := by
          simp [List.filter_cons, hskip]
        rw [hfil]
        by_cases hcl : distanceCmp addr c0 q = -1
        · have hstep : closestStep addr skip p2p c0 q = q := by
            simp [closestStep, hskip, hq, hcl]
          rw [hstep]
          have hqlt : addr ^^^ q < addr ^^^ c0 := (distanceCmp_eq_neg_one addr c0 q).mp hcl
          obtain ⟨hd, hall⟩ := ih q hrest
          constructor
          · rcases hd with hd | ⟨hmem, hlt⟩
            · right
              exact ⟨by rw [hd]; exact List.mem_cons_self _ _, by rw [hd]; exact hqlt⟩
            · right
              exact ⟨List.mem_cons_of_mem _ hmem, lt_trans hlt hqlt⟩
          · intro p hp
            rcases List.mem_cons.mp hp with rfl | hp
            · rcases hd with hd | ⟨_, hlt⟩
              · rw [hd]
              · exact le_of_lt hlt
            · exact hall p hp
        · have hstep : closestStep addr skip p2p c0 q = c0 := by
            simp [closestStep, hskip, hq, hcl]
          rw [hstep]
          have hqge : addr ^^^ c0 ≤ addr ^^^ q := by
            rw [distanceCmp_eq_neg_one] at hcl
            omega
          obtain ⟨hd, hall⟩ := ih c0 hrest
          constructor
          · rcases hd with hd | ⟨hmem, hlt⟩
            · exact Or.inl hd
            · exact Or.inr ⟨List.mem_cons_of_mem _ hmem, hlt⟩
          intro p hp
          rcases List.mem_cons.mp hp with rfl | hp
          · have hle : addr ^^^ rest.foldl (closestStep addr skip p2p) c0 ≤ addr ^^^ c0 := by
              rcases hd with hd | ⟨_, hlt⟩
              · rw [hd]
              · exact le_of_lt hlt
            exact le_trans hle hqge
          · exact hall p hp

/-- C2: for every target address and skip list, `ClosestPeer` returns
the connected peer not on the skip list with the smallest XOR distance
to the target, `ErrWantSelf` exactly when the node's own base address
is at least as close as every eligible connected peer, and
`ErrNotFound` exactly when no peer is connected.  The hypothesis states
the topology/p2p consistency the hotfix kludge tests for (every
connected peer known to the p2p service). -/
theorem claim_C2_ClosestPeer (base addr : Nat) (connected : PSlice)
    (p2pPeers skip : List Nat)
    (hcons : ∀ p ∈ connectedAddrs connected, p ∈ p2pPeers) :
    (closestPeerKad base addr connected p2pPeers skip = .notFound
        ↔ pLength connected = 0)
    ∧ (closestPeerKad base addr connected p2pPeers skip = .wantSelf
        ↔ pLength connected ≠ 0
          ∧ ∀ p ∈ eligiblePeers connected skip, addr ^^^ base ≤ addr ^^^ p)
    ∧ ∀ q, closestPeerKad base addr connected p2pPeers skip = .peer q →
        q ∈ eligiblePeers connected skip
        ∧ addr ^^^ q < addr ^^^ base
        ∧ ∀ p ∈ eligiblePeers connected skip, addr ^^^ q ≤ addr ^^^ p := by
  unfold closestPeerKad
  by_cases hemp : pLength connected = 0
  · rw [if_pos hemp]
    refine ⟨by simp [hemp], by simp [hemp], ?_⟩
    intro q hq
    simp at hq
  · rw [if_neg hemp]
    obtain ⟨hd, hall⟩ := closestFold_spec addr skip p2pPeers (connectedAddrs connected)
      base hcons
    set c := (connectedAddrs connected).foldl (closestStep addr skip p2pPeers) base with hc
    by_cases hcb : c = base
    · rw [if_pos hcb]
      refine ⟨by simp [hemp], ?_, ?_⟩
      · constructor
        · intro _
          refine ⟨hemp, fun p hp => ?_⟩
          have := hall p hp
          rw [hcb] at this
          exact this
        · intro _
          rfl
      · intro q hq
        simp at hq
    · rw [if_neg hcb]
      have hcmem : c ∈ (connectedAddrs connected).filter (fun p => p ∉ skip)
          ∧ addr ^^^ c < addr ^^^ base := by
        rcases hd with hd | hd
        · exact absurd hd hcb
        · exact hd
      refine ⟨by simp [hemp], ?_, ?_⟩
      · constructor
        · intro h
          simp at h
        · rintro ⟨-, hmin⟩
          have h1 := hmin c hcmem.1
          have h2 := hcmem.2
          omega
      · intro q hq
        have hq2 : c = q := by
          simpa [ClosestRes.peer.injEq] using hq
        rw [← hq2]
        exact ⟨hcmem.1, hcmem.2, hall⟩

/-- C2 witness: base 0, target 5, connected peers 1 (bin 0) and 3
(bin 1), both known to the p2p service, empty skip list; the XOR
distances to the target are 4, 6 and 5 respectively, so the result is
peer 1. -/
theorem claim_C2_witness :
    (∀ p ∈ connectedAddrs [[1], [3]], p ∈ [1, 3])
    ∧ ((closestPeerKad 0 5 [[1], [3]] [1, 3] [] = .notFound
          ↔ pLength [[1], [3]] = 0)
      ∧ (closestPeerKad 0 5 [[1], [3]] [1, 3] [] = .wantSelf
          ↔ pLength [[1], [3]] ≠ 0
            ∧ ∀ p ∈ eligiblePeers [[1], [3]] [], (5 : Nat) ^^^ 0 ≤ 5 ^^^ p)
      ∧ ∀ q, closestPeerKad 0 5 [[1], [3]] [1, 3] [] = .peer q →
          q ∈ eligiblePeers [[1], [3]] []
          ∧ (5 : Nat) ^^^ q < 5 ^^^ 0
          ∧ ∀ p ∈ eligiblePeers [[1], [3]] [], (5 : Nat) ^^^ q ≤ 5 ^^^ p) :=
  ⟨by decide, claim_C2_ClosestPeer 0 5 [[1], [3]] [1, 3] [] (by decide)⟩

/-! ### Connect retry and pruning (C5) -/

theorem getLastD_append_single {α : Type} (l : List α) (t d : α) :
    (l ++ [t]).getLastD d = t := by
  induction l with
  | nil => rfl
  | cons a rest ih =>
      cases rest with
      | nil => rfl
      | cons b r2 => simpa using ih

theorem failTrajectory_append (l : List Nat) (t : Nat) :
    failTrajectory (l ++ [t]) = manageConnectFail t none (failTrajectory l) := by
  unfold failTrajectory
  rw [List.foldl_append]
  rfl

/-- Closed form of the generic-failure trajectory as the manage loop
leaves it: up to `maxConnAttempts` failures only rewrite the retry
entry; the `maxConnAttempts + 1`-st failure clears the address-book
membership, after which the loop's epilogue re-arms a `timeToRetry`
window with a zeroed counter — `known_peers` membership stays intact
throughout. -/
theorem failTrajectory_closed (ts : List Nat) (h : ts.length ≤ maxConnAttempts + 1) :
    failTrajectory ts =
      if ts.length = 0 then initialPeerState
      else if ts.length ≤ maxConnAttempts then
        ⟨some ⟨ts.getLastD 0 + timeToRetry, ts.length⟩, true, true, ts.length⟩
      else ⟨some ⟨ts.getLastD 0 + timeToRetry, 0⟩, false, true, ts.length⟩ := by
  induction ts using List.reverseRecOn with
  | nil => rfl
  | append_singleton l t ih =>
      have hlen : (l ++ [t]).length = l.length + 1 := by simp
      have hl : l.length ≤ maxConnAttempts + 1 := by
        rw [hlen] at h
        omega
      have hl3 : l.length ≤ maxConnAttempts := by
        rw [hlen] at h
        simp [maxConnAttempts] at h ⊢
        omega
      rw [failTrajectory_append, ih hl, hlen, getLastD_append_single]
      by_cases h0 : l.length = 0
      · rw [if_pos h0, h0]
        simp only [initialPeerState, manageConnectFail, connectFailure,
          maxConnAttempts, timeToRetry]
        norm_num
      · rw [if_neg h0, if_pos hl3]
        by_cases h3 : l.length = maxConnAttempts
        · rw [if_neg (by omega), if_neg (by omega), h3]
          simp [manageConnectFail, connectFailure, maxConnAttempts]
        · rw [if_neg (by omega), if_pos (by simp [maxConnAttempts] at h3 hl3 ⊢; omega)]
          have hfa : ¬ l.length + 1 > maxConnAttempts := by
            simp [maxConnAttempts] at h3 hl3 ⊢
            omega
          simp only [manageConnectFail, connectFailure]
          rw [if_neg hfa]

/-- C5 counterexample: a non-connectable peer is still in both the
address book and `known_peers` after `maxConnAttempts = 3` failed
connect attempts; the removal happens only on the fourth attempt, and
even then only the address-book entry is removed — `known_peers`
membership survives the pruning failure itself. -/
theorem claim_C5_counterexample :
    (failTrajectory [0, 100, 200]).connectCalls = maxConnAttempts
    ∧ (failTrajectory [0, 100, 200]).inAddressBook = true
    ∧ (failTrajectory [0, 100, 200]).inKnown = true
    ∧ (failTrajectory [0, 100, 200, 300]).connectCalls = maxConnAttempts + 1
    ∧ (failTrajectory [0, 100, 200, 300]).inAddressBook = false
    ∧ (failTrajectory [0, 100, 200, 300]).inKnown = true := by
  decide

/-- C5 amended: each generic connect failure increments the peer's
`failed_attempts` counter and rewrites `try_after = now + timeToRetry`
(a transport `After` hint instead sets `try_after` to the hint with the
counter reset to zero); the failure that takes the counter past
`maxConnAttempts = 3` — the `maxConnAttempts + 1 = 4`-th connect
attempt — removes the peer from the address book, after which the
manage loop's epilogue re-arms a `timeToRetry` retry window with a
zeroed counter; manage passes before that window elapses skip the peer
entirely, and the first pass after it elapses removes the peer from
`known_peers` — in both cases without any further connect attempt. -/
theorem claim_C5_backoff_pruning (ts : List Nat)
    (hlen : ts.length ≤ maxConnAttempts + 1) :
    (failTrajectory ts).connectCalls = ts.length
    ∧ ((failTrajectory ts).inAddressBook ↔ ts.length ≤ maxConnAttempts)
    ∧ (failTrajectory ts).inKnown = true
    ∧ (0 < ts.length → ts.length ≤ maxConnAttempts →
        (failTrajectory ts).waitNext = some ⟨ts.getLastD 0 + timeToRetry, ts.length⟩)
    ∧ (ts.length = maxConnAttempts + 1 →
        (failTrajectory ts).waitNext = some ⟨ts.getLastD 0 + timeToRetry, 0⟩)
    ∧ (ts.length = maxConnAttempts + 1 →
        ∀ now hint, now < ts.getLastD 0 + timeToRetry →
          manageAttempt now hint (failTrajectory ts) = failTrajectory ts)
    ∧ (ts.length = maxConnAttempts + 1 →
        ∀ now hint, ts.getLastD 0 + timeToRetry ≤ now →
          manageAttempt now hint (failTrajectory ts)
            = { failTrajectory ts with inKnown := false })
    ∧ (∀ now t, connectFailure now (some t) initialPeerState
        = { initialPeerState with waitNext := some ⟨t, 0⟩, connectCalls := 1 }) := by
  rw [failTrajectory_closed ts hlen]
  by_cases h0 : ts.length = 0
  · rw [if_pos h0, h0]
    refine ⟨rfl, by simp [maxConnAttempts, initialPeerState], rfl, by omega,
      by intro hc; omega, by intro hc; omega, by intro hc; omega, ?_⟩
    intro now t
    simp [connectFailure, initialPeerState, maxConnAttempts]
  · by_cases h3 : ts.length ≤ maxConnAttempts
    · rw [if_neg h0, if_pos h3]
      refine ⟨rfl, by simpa using h3, rfl, fun _ _ => rfl,
        by intro hc; omega, by intro hc; omega, by intro hc; omega, ?_⟩
      intro now t
      simp [connectFailure, initialPeerState, maxConnAttempts]
    · rw [if_neg h0, if_neg h3]
      refine ⟨rfl, by simpa using h3, rfl, by intro _ hc; exact absurd hc h3,
        fun _ => rfl, ?_, ?_, ?_⟩
      · intro _ now hint hnow
        rw [List.getLastD_eq_getLast?] at hnow
        simp [manageAttempt, hnow]
      · intro _ now hint hnow
        rw [List.getLastD_eq_getLast?] at hnow
        have hlt : ¬ now < ts.getLast?.getD 0 + timeToRetry := by omega
        simp [manageAttempt, hlt]
      · intro now t
        simp [connectFailure, initialPeerState, maxConnAttempts]

/-- C5 witness: the amended theorem applied to the concrete
four-failure trajectory at times 0, 100, 200, 300. -/
theorem claim_C5_witness :
    ([0, 100, 200, 300] : List Nat).length ≤ maxConnAttempts + 1
    ∧ ((failTrajectory [0, 100, 200, 300]).connectCalls = ([0, 100, 200, 300] : List Nat).length
      ∧ ((failTrajectory [0, 100, 200, 300]).inAddressBook
          ↔ ([0, 100, 200, 300] : List Nat).length ≤ maxConnAttempts)
      ∧ (failTrajectory [0, 100, 200, 300]).inKnown = true
      ∧ (0 < ([0, 100, 200, 300] : List Nat).length →
          ([0, 100, 200, 300] : List Nat).length ≤ maxConnAttempts →
          (failTrajectory [0, 100, 200, 300]).waitNext
            = some ⟨([0, 100, 200, 300] : List Nat).getLastD 0 + timeToRetry,
                ([0, 100, 200, 300] : List Nat).length⟩)
      ∧ (([0, 100, 200, 300] : List Nat).length = maxConnAttempts + 1 →
          (failTrajectory [0, 100, 200, 300]).waitNext
            = some ⟨([0, 100, 200, 300] : List Nat).getLastD 0 + timeToRetry, 0⟩)
      ∧ (([0, 100, 200, 300] : List Nat).length = maxConnAttempts + 1 →
          ∀ now hint, now < ([0, 100, 200, 300] : List Nat).getLastD 0 + timeToRetry →
            manageAttempt now hint (failTrajectory [0, 100, 200, 300])
              = failTrajectory [0, 100, 200, 300])
      ∧ (([0, 100, 200, 300] : List Nat).length = maxConnAttempts + 1 →
          ∀ now hint, ([0, 100, 200, 300] : List Nat).getLastD 0 + timeToRetry ≤ now →
            manageAttempt now hint (failTrajectory [0, 100, 200, 300])
              = { failTrajectory [0, 100, 200, 300] with inKnown := false })
      ∧ (∀ now t, connectFailure now (some t) initialPeerState
          = { initialPeerState with waitNext := some ⟨t, 0⟩, connectCalls := 1 })) :=
  ⟨by decide, claim_C5_backoff_pruning [0, 100, 200, 300] (by decide)⟩

/-! ### Hive batching (C7) -/

theorem sendLoop_spec (fuel : Nat) :
    ∀ (mx : Nat) (l : List Nat), l.length ≤ fuel → 1 ≤ mx →
      (sendLoop fuel mx l).flatten = l
      ∧ ∀ b ∈ sendLoop fuel mx l, b.length ≤ mx := by
  induction fuel with
  | zero =>
      intro mx l hl _
      have : l = [] := List.length_eq_zero.mp (Nat.le_zero.mp hl)
      subst this
      simp [sendLoop]
  | succ fuel ih =>
      intro mx l hl hmx
      cases l with
      | nil => simp [sendLoop]
      | cons p ps =>
          simp only [sendLoop]
          set m := if mx > (p :: ps).length then (p :: ps).length else mx with hm
          have hm1 : 1 ≤ m := by
            rw [hm]
            split
            · simp [List.length_cons]
            · omega
          have hmle : m ≤ mx := by
            rw [hm]
            split <;> omega
          have hdrop : ((p :: ps).drop m).length ≤ fuel := by
            rw [List.length_drop]
            simp only [List.length_cons] at hl ⊢
            omega
          obtain ⟨hflat, hlen⟩ := ih m ((p :: ps).drop m) hdrop hm1
          constructor
          · rw [List.flatten_cons, hflat, List.take_append_drop]
          · intro b hb
            rcases List.mem_cons.mp hb with rfl | hb
            · rw [List.length_take]
              omega
            · exact le_trans (hlen b hb) hmle

/-- C7: for every addressee and peer-address list, `BroadcastPeers`
partitions the list in order into consecutive batches of at most
`maxBatchSize = 30` entries, sends each batch as one `Peers` message on
its own one-shot stream (so the message holds at most 30 records — the
records are the address-book entries of the batch, skipping missing
ones), and the concatenation of the batches is the input list. -/
theorem claim_C7_BroadcastPeers {β : Type} (peers : List Nat) (book : Nat → Option β) :
    (broadcastBatches peers).flatten = peers
    ∧ (∀ b ∈ broadcastBatches peers, b.length ≤ maxBatchSize)
    ∧ (∀ b ∈ broadcastBatches peers, (sendPeersRecords book b).length ≤ maxBatchSize) := by
  obtain ⟨hflat, hlen⟩ :=
    sendLoop_spec peers.length maxBatchSize peers le_rfl (by simp [maxBatchSize])
  refine ⟨hflat, hlen, ?_⟩
  intro b hb
  calc (sendPeersRecords book b).length ≤ b.length := by
        unfold sendPeersRecords
        exact List.length_filterMap_le _ _
    _ ≤ maxBatchSize := hlen b hb

/-- C7 witness: the theorem applied to a concrete 65-peer list and the
identity address book; the batches join back to the list and every
batch is at most 30 long. -/
theorem claim_C7_witness :
    (broadcastBatches (List.range 65)).flatten = List.range 65
    ∧ (∀ b ∈ broadcastBatches (List.range 65), b.length ≤ maxBatchSize)
    ∧ ∀ b ∈ broadcastBatches (List.range 65),
        (sendPeersRecords (fun a => some a) b).length ≤ maxBatchSize :=
  claim_C7_BroadcastPeers (List.range 65) (fun a => some a)

/-! ### Netstore composition (C3) -/

/-- C3: `netstore.Get` returns a local hit unchanged; on a local
`NotFound` it invokes retrieval and, on success, issues exactly one
`Put(ModePutRequest)` of the retrieved chunk and returns it; when
retrieval also misses, with targets in the context and a registered
callback it schedules the callback exactly once with `(addr, targets)`
and returns the `ErrRecoveryAttempt` sentinel (distinct from
`NotFound`), and otherwise it returns `NotFound`. -/
theorem claim_C3_netstore_Get (addr : Nat) (localResult : Except NErr Chunk)
    (retrievalOutcome : Option Chunk) (targets : Option (List Nat))
    (hasCallback : Bool) (putResult : Except NErr Unit) :
    (∀ ch, localResult = .ok ch →
        netstoreGet addr localResult retrievalOutcome targets hasCallback putResult
          = (.ok ch, []))
    ∧ (∀ ch, localResult = .error .notFound → retrievalOutcome = some ch →
        putResult = .ok () →
        netstoreGet addr localResult retrievalOutcome targets hasCallback putResult
          = (.ok ch, [.putRequest ch]))
    ∧ (∀ tg, localResult = .error .notFound → retrievalOutcome = none →
        targets = some tg → hasCallback = true →
        netstoreGet addr localResult retrievalOutcome targets hasCallback putResult
          = (.error .recoveryAttempt, [.scheduleRecovery addr tg])
        ∧ ((netstoreGet addr localResult retrievalOutcome targets hasCallback
              putResult).2.count (.scheduleRecovery addr tg) = 1))
    ∧ (localResult = .error .notFound → retrievalOutcome = none →
        (targets = none ∨ hasCallback = false) →
        netstoreGet addr localResult retrievalOutcome targets hasCallback putResult
          = (.error .notFound, []))
    ∧ NErr.recoveryAttempt ≠ NErr.notFound := by
  refine ⟨?_, ?_, ?_, ?_, by simp⟩
  · intro ch h
    subst h
    rfl
  · intro ch h hr hp
    subst h; subst hr; subst hp
    rfl
  · intro tg h hr ht hc
    subst h; subst hr; subst ht; subst hc
    refine ⟨rfl, ?_⟩
    simp [netstoreGet]
  · intro h hr hd
    subst h; subst hr
    rcases hd with hd | hd
    · subst hd
      rfl
    · subst hd
      cases targets <;> rfl

/-- C3 witness: concrete local miss, retrieval miss, targets `[7]`,
registered callback — the result is the recovery sentinel and the
callback is scheduled exactly once. -/
theorem claim_C3_witness :
    ((42 : Nat) = 42)
    ∧ (netstoreGet 42 (.error .notFound) none (some [7]) true (.ok ())
        = (.error .recoveryAttempt, [.scheduleRecovery 42 [7]])
      ∧ (netstoreGet 42 (.error .notFound) none (some [7]) true (.ok ())).2.count
          (.scheduleRecovery 42 [7]) = 1) :=
  ⟨rfl, (claim_C3_netstore_Get 42 (.error .notFound) none (some [7]) true
      (.ok ())).2.2.1 [7] rfl rfl rfl rfl⟩

/-! ### Peer-record verification (C4) -/

theorem generateSignData_ne_of_nid (underlay overlay : List Nat) :
    generateSignData underlay overlay 1 ≠ generateSignData underlay overlay 2 := by
  intro h
  unfold generateSignData at h
  have h1 := List.append_cancel_left h
  have : u64be 1 ≠ u64be 2 := by decide
  exact this h1

theorem parseAddress_none (maValid : List Nat → Bool) (underlay overlay : List Nat)
    (signature : Sig) (nid : Nat)
    (h : recover signature (generateSignData underlay overlay nid) = none) :
    parseAddress maValid underlay overlay signature nid = .invalidAddress := by
  unfold parseAddress
  rw [h]

theorem parseAddress_some (maValid : List Nat → Bool) (underlay overlay : List Nat)
    (signature : Sig) (nid pk : Nat)
    (h : recover signature (generateSignData underlay overlay nid) = some pk) :
    parseAddress maValid underlay overlay signature nid
      = if newOverlayAddress pk nid ≠ overlay then .invalidAddress
        else if ¬ maValid underlay then .invalidAddress
        else .ok overlay underlay signature := by
  unfold parseAddress
  rw [h]

/-- C4: `ParseAddress(underlay, overlay, signature, networkID)`
succeeds iff the signature recovers a public key over
`"voyager-handshake-" || underlay || overlay || u64_be(networkID)`
whose re-derived overlay equals the given overlay byte-for-byte; on
success the record carries exactly the given overlay, underlay and
signature, any failure yields `ErrInvalidAddress`, and in particular a
record signed for network id 1 but verified with network id 2 is
`ErrInvalidAddress`.  The hypothesis states that the underlay parses as
a multiaddr. -/
theorem claim_C4_ParseAddress (maValid : List Nat → Bool)
    (underlay overlay : List Nat) (sig : Sig) (nid : Nat)
    (hma : maValid underlay = true) :
    (parseAddress maValid underlay overlay sig nid = .ok overlay underlay sig
      ↔ ∃ pk, recover sig (generateSignData underlay overlay nid) = some pk
          ∧ newOverlayAddress pk nid = overlay)
    ∧ (parseAddress maValid underlay overlay sig nid = .ok overlay underlay sig
        ∨ parseAddress maValid underlay overlay sig nid = .invalidAddress)
    ∧ ∀ sk, parseAddress maValid underlay overlay (newAddress sk underlay overlay 1) 2
        = .invalidAddress := by
  refine ⟨?_, ?_, ?_⟩
  · cases hrec : recover sig (generateSignData underlay overlay nid) with
    | none =>
        rw [parseAddress_none maValid underlay overlay sig nid hrec]
        constructor
        · intro h
          exact absurd h (by simp)
        · rintro ⟨pk, hpk, -⟩
          exact Option.noConfusion hpk
    | some pk =>
        rw [parseAddress_some maValid underlay overlay sig nid pk hrec]
        by_cases hov : newOverlayAddress pk nid = overlay
        · rw [if_neg (by simpa using hov), if_neg (by simp [hma])]
          constructor
          · intro _
            exact ⟨pk, rfl, hov⟩
          · intro _
            rfl
        · rw [if_pos (by simpa using hov)]
          constructor
          · intro h
            exact absurd h (by simp)
          · rintro ⟨pk2, hpk2, hov2⟩
            cases hpk2
            exact absurd hov2 hov
  · cases hrec : recover sig (generateSignData underlay overlay nid) with
    | none =>
        rw [parseAddress_none maValid underlay overlay sig nid hrec]
        right; rfl
    | some pk =>
        rw [parseAddress_some maValid underlay overlay sig nid pk hrec]
        by_cases hov : newOverlayAddress pk nid ≠ overlay
        · rw [if_pos hov]
          right; rfl
        · rw [if_neg hov, if_neg (by simp [hma])]
          left; rfl
  · intro sk
    have hne : ¬(generateSignData underlay overlay 2
        = (newAddress sk underlay overlay 1).payload) := by
      unfold newAddress sign
      exact (generateSignData_ne_of_nid underlay overlay).symm
    have hrec : recover (newAddress sk underlay overlay 1)
        (generateSignData underlay overlay 2) = none := by
      unfold recover
      rw [if_neg hne]
    exact parseAddress_none maValid underlay overlay _ 2 hrec

/-- C4 witness: underlay `[1]`, key 5, network id 9; the honestly
constructed record parses back, and the same record checked against
network id 2 after being signed for network id 1 fails. -/
theorem claim_C4_witness :
    ((fun _ : List Nat => true) [1] = true)
    ∧ ((parseAddress (fun _ => true) [1] [5, 9] (newAddress 5 [1] [5, 9] 9) 9
          = .ok [5, 9] [1] (newAddress 5 [1] [5, 9] 9)
        ↔ ∃ pk, recover (newAddress 5 [1] [5, 9] 9)
              (generateSignData [1] [5, 9] 9) = some pk
            ∧ newOverlayAddress pk 9 = [5, 9])
      ∧ (parseAddress (fun _ => true) [1] [5, 9] (newAddress 5 [1] [5, 9] 9) 9
            = .ok [5, 9] [1] (newAddress 5 [1] [5, 9] 9)
          ∨ parseAddress (fun _ => true) [1] [5, 9] (newAddress 5 [1] [5, 9] 9) 9
            = .invalidAddress)
      ∧ ∀ sk, parseAddress (fun _ => true) [1] [5, 9]
            (newAddress sk [1] [5, 9] 1) 2 = .invalidAddress) :=
  ⟨rfl, claim_C4_ParseAddress (fun _ => true) [1] [5, 9]
      (newAddress 5 [1] [5, 9] 9) 9 rfl⟩

/-! ### Localstore access modes (C9) -/

theorem find?_filter_of_ne {β : Type} (m : List (Nat × β)) (k k2 : Nat) (h : k2 ≠ k) :
    (m.filter (fun e => e.1 ≠ k)).find? (fun e => e.1 == k2)
      = m.find? (fun e => e.1 == k2) := by
  induction m with
  | nil => rfl
  | cons e rest ih =>
      by_cases he : e.1 = k
      · rw [List.filter_cons_of_neg (by simp [he])]
        rw [List.find?_cons_of_neg _ (by simp [he]; omega)]
        exact ih
      · rw [List.filter_cons_of_pos (by simp [he])]
        by_cases he2 : e.1 = k2
        · rw [List.find?_cons_of_pos _ (by simp [he2]),
            List.find?_cons_of_pos _ (by simp [he2])]
        · rw [List.find?_cons_of_neg _ (by simp [he2]),
            List.find?_cons_of_neg _ (by simp [he2])]
          exact ih

theorem lookupA_setA {β : Type} (m : List (Nat × β)) (k k2 : Nat) (v : β) :
    lookupA (setA m k v) k2 = if k2 = k then some v else lookupA m k2 := by
  unfold lookupA setA
  by_cases h : k2 = k
  · rw [if_pos h, List.find?_cons_of_pos _ (by simp [h])]
    rfl
  · rw [if_neg h, List.find?_cons_of_neg _ (by simp; omega),
      find?_filter_of_ne m k k2 h]

theorem fillRetrieval_ok (db : DBState) (addrs : List Nat) (items : List Item)
    (h : fillRetrieval db addrs = .ok items) :
    items.map Item.address = addrs
    ∧ ∀ it ∈ items, lookupA db.retrieval it.address = some it.data := by
  induction addrs generalizing items with
  | nil =>
      simp only [fillRetrieval] at h
      cases h
      simp
  | cons a rest ih =>
      simp only [fillRetrieval] at h
      cases hl : lookupA db.retrieval a with
      | none => rw [hl] at h; cases h
      | some d =>
          rw [hl] at h
          cases hr : fillRetrieval db rest with
          | error e => rw [hr] at h; cases h
          | ok items0 =>
              rw [hr] at h
              cases h
              obtain ⟨hmap, hmem⟩ := ih items0 hr
              refine ⟨by simp [hmap], ?_⟩
              intro it hit
              rcases List.mem_cons.mp hit with rfl | hit
              · exact hl
              · exact hmem it hit

theorem fillPin_ok (db : DBState) (items items2 : List Item)
    (h : fillPin db items = .ok items2) :
    items2.map Item.address = items.map Item.address
    ∧ (∀ it ∈ items2, (∃ it0 ∈ items, it.address = it0.address ∧ it.data = it0.data)
        ∧ lookupA db.pin it.address = some it.pinCounter) := by
  induction items generalizing items2 with
  | nil =>
      simp only [fillPin] at h
      cases h
      simp
  | cons it0 rest ih =>
      simp only [fillPin] at h
      cases hl : lookupA db.pin it0.address with
      | none => rw [hl] at h; cases h
      | some c =>
          rw [hl] at h
          cases hr : fillPin db rest with
          | error e => rw [hr] at h; cases h
          | ok items0 =>
              rw [hr] at h
              cases h
              obtain ⟨hmap, hmem⟩ := ih items0 hr
              refine ⟨by simp [hmap], ?_⟩
              intro it hit
              rcases List.mem_cons.mp hit with rfl | hit
              · exact ⟨⟨it0, List.mem_cons_self _ _, rfl, rfl⟩, hl⟩
              · obtain ⟨⟨it1, hit1, he1, he2⟩, hpin⟩ := hmem it hit
                exact ⟨⟨it1, List.mem_cons_of_mem _ hit1, he1, he2⟩, hpin⟩

theorem updateGCItems_spec (now : Nat) (items : List Item) (db : DBState) :
    (updateGCItems now items db).retrieval = db.retrieval
    ∧ (updateGCItems now items db).pin = db.pin
    ∧ (updateGCItems now items db).push = db.push
    ∧ ∀ a, (a ∈ items.map Item.address →
          lookupA (updateGCItems now items db).access a = some now
          ∧ lookupA (updateGCItems now items db).gc a = some now)
        ∧ (a ∉ items.map Item.address →
          lookupA (updateGCItems now items db).access a = lookupA db.access a
          ∧ lookupA (updateGCItems now items db).gc a = lookupA db.gc a) := by
  induction items generalizing db with
  | nil => simp [updateGCItems]
  | cons it rest ih =>
      have hstep : updateGCItems now (it :: rest) db
          = updateGCItems now rest
              { db with access := setA db.access it.address now,
                        gc := setA db.gc it.address now } := rfl
      rw [hstep]
      obtain ⟨hr, hp, hpush, hacc⟩ := ih
        { db with access := setA db.access it.address now,
                  gc := setA db.gc it.address now }
      refine ⟨hr, hp, hpush, ?_⟩
      intro a
      obtain ⟨hin, hout⟩ := hacc a
      constructor
      · intro hmem
        rw [List.map_cons] at hmem
        rcases List.mem_cons.mp hmem with heq | hmem2
        · by_cases hrest : a ∈ rest.map Item.address
          · exact hin hrest
          · obtain ⟨h1, h2⟩ := hout hrest
            rw [h1, h2, heq]
            simp [lookupA_setA]
        · exact hin hmem2
      · intro hmem
        rw [List.map_cons] at hmem
        have hne : a ≠ it.address := by
          intro he
          exact hmem (by rw [he]; exact List.mem_cons_self _ _)
        have hrest : a ∉ rest.map Item.address := by
          intro hc
          exact hmem (List.mem_cons_of_mem _ hc)
        obtain ⟨h1, h2⟩ := hout hrest
        rw [h1, h2]
        simp [lookupA_setA, hne]

/-- C9: `getMulti(mode, addrs)` reads the requested chunks from the
retrieval index and performs exactly the side effects of its access
mode and no others: `Request` updates the access timestamp and GC index
entries of the returned chunks (all other indexes and all other
addresses untouched), `Pin` additionally fills each returned item's pin
counter from the pin index, and `Sync`, `Lookup` and `Pin` leave every
index unchanged; error paths also leave the state unchanged. -/
theorem claim_C9_getMulti (mode : ModeGet) (addrs : List Nat) (now : Nat)
    (db : DBState) :
    (∀ items, (getMulti mode addrs now db).1 = .ok items →
        items.map Item.address = addrs
        ∧ ∀ it ∈ items, lookupA db.retrieval it.address = some it.data)
    ∧ (mode = .sync ∨ mode = .lookup ∨ mode = .pin →
        (getMulti mode addrs now db).2 = db)
    ∧ (∀ e, (getMulti mode addrs now db).1 = .error e →
        (getMulti mode addrs now db).2 = db)
    ∧ (mode = .request → ∀ items, (getMulti mode addrs now db).1 = .ok items →
        (getMulti mode addrs now db).2.retrieval = db.retrieval
        ∧ (getMulti mode addrs now db).2.pin = db.pin
        ∧ (getMulti mode addrs now db).2.push = db.push
        ∧ (∀ a, a ∈ addrs →
            lookupA (getMulti mode addrs now db).2.access a = some now
            ∧ lookupA (getMulti mode addrs now db).2.gc a = some now)
        ∧ (∀ a, a ∉ addrs →
            lookupA (getMulti mode addrs now db).2.access a = lookupA db.access a
            ∧ lookupA (getMulti mode addrs now db).2.gc a = lookupA db.gc a))
    ∧ (mode = .pin → ∀ items, (getMulti mode addrs now db).1 = .ok items →
        ∀ it ∈ items, lookupA db.pin it.address = some it.pinCounter) := by
  cases hfill : fillRetrieval db addrs with
  | error e =>
      have hg : getMulti mode addrs now db = (.error e, db) := by
        unfold getMulti
        rw [hfill]
      rw [hg]
      refine ⟨?_, ?_, ?_, ?_, ?_⟩
      · intro items h
        cases h
      · intro _
        rfl
      · intro _ _
        rfl
      · intro _ items h
        cases h
      · intro _ items h
        cases h
  | ok items0 =>
      obtain ⟨hmap0, hmem0⟩ := fillRetrieval_ok db addrs items0 hfill
      cases mode with
      | request =>
          have hg : getMulti .request addrs now db
              = (.ok items0, updateGCItems now items0 db) := by
            unfold getMulti
            rw [hfill]
          rw [hg]
          obtain ⟨hr, hp, hpush, hacc⟩ := updateGCItems_spec now items0 db
          refine ⟨?_, ?_, ?_, ?_, ?_⟩
          · intro items h
            cases h
            exact ⟨hmap0, hmem0⟩
          · intro hmode
            rcases hmode with hmode | hmode | hmode <;> cases hmode
          · intro e h
            cases h
          · intro _ items h
            cases h
            refine ⟨hr, hp, hpush, ?_, ?_⟩
            · intro a ha
              exact (hacc a).1 (by rw [hmap0]; exact ha)
            · intro a ha
              exact (hacc a).2 (by rw [hmap0]; exact ha)
          · intro hmode
            cases hmode
      | sync =>
          have hg : getMulti .sync addrs now db = (.ok items0, db) := by
            unfold getMulti
            rw [hfill]
          rw [hg]
          refine ⟨?_, fun _ => rfl, ?_, ?_, ?_⟩
          · intro items h
            cases h
            exact ⟨hmap0, hmem0⟩
          · intro e h
            cases h
          · intro hmode
            cases hmode
          · intro hmode
            cases hmode
      | lookup =>
          have hg : getMulti .lookup addrs now db = (.ok items0, db) := by
            unfold getMulti
            rw [hfill]
          rw [hg]
          refine ⟨?_, fun _ => rfl, ?_, ?_, ?_⟩
          · intro items h
            cases h
            exact ⟨hmap0, hmem0⟩
          · intro e h
            cases h
          · intro hmode
            cases hmode
          · intro hmode
            cases hmode
      | pin =>
          have hg0 : getMulti .pin addrs now db
              = (match fillPin db items0 with
                  | .error e => (.error e, db)
                  | .ok items2 => (.ok items2, db)) := by
            unfold getMulti
            rw [hfill]
          cases hpin : fillPin db items0 with
          | error e =>
              have hg : getMulti .pin addrs now db = (.error e, db) := by
                rw [hg0, hpin]
              rw [hg]
              refine ⟨?_, fun _ => rfl, fun _ _ => rfl, ?_, ?_⟩
              · intro items h
                cases h
              · intro hmode
                cases hmode
              · intro _ items h
                cases h
          | ok items2 =>
              have hg : getMulti .pin addrs now db = (.ok items2, db) := by
                rw [hg0, hpin]
              rw [hg]
              obtain ⟨hmap2, hmem2⟩ := fillPin_ok db items0 items2 hpin
              refine ⟨?_, fun _ => rfl, ?_, ?_, ?_⟩
              · intro items h
                cases h
                refine ⟨by rw [hmap2, hmap0], ?_⟩
                intro it hit
                obtain ⟨⟨it0, hit0, he1, he2⟩, -⟩ := hmem2 it hit
                rw [he1, he2]
                exact hmem0 it0 hit0
              · intro e h
                cases h
              · intro hmode
                cases hmode
              · intro _ items h
                cases h
                intro it hit
                exact (hmem2 it hit).2

/-- C9 witness: a one-chunk store; `Request` stamps the access
timestamp and GC entry of the requested address, `Sync`, `Lookup` and
`Pin` leave the state unchanged. -/
theorem claim_C9_witness :
    ((ModeGet.sync = .sync ∨ ModeGet.sync = .lookup ∨ ModeGet.sync = .pin) →
      (getMulti .sync [1] 99 ⟨[(1, [5])], [], [], [], []⟩).2
        = ⟨[(1, [5])], [], [], [], []⟩) ∧ ModeGet.sync = ModeGet.sync :=
  ⟨(claim_C9_getMulti .sync [1] 99 ⟨[(1, [5])], [], [], [], []⟩).2.1, rfl⟩

/-! ### ChunkPipe re-chunking (C10) -/

theorem writeLoop_spec (n : Nat) :
    ∀ (b : List Nat), b.length ≤ n → ∀ data, data.length ≤ chunkSize →
      (writeLoop data b).1.flatten ++ (writeLoop data b).2 = data ++ b
      ∧ (∀ s ∈ (writeLoop data b).1, s.length = chunkSize)
      ∧ (writeLoop data b).2.length ≤ chunkSize := by
  induction n with
  | zero =>
      intro b hb data hdata
      have : b = [] := List.length_eq_zero.mp (Nat.le_zero.mp hb)
      subst this
      rw [writeLoop]
      simp
      exact hdata
  | succ n ih =>
      intro b hb data hdata
      by_cases hbe : b = []
      · subst hbe
        rw [writeLoop]
        simp
        exact hdata
      · rw [writeLoop, dif_neg hbe]
        have hblen : 1 ≤ b.length := List.length_pos.mpr hbe
        have hcop : min (maxBufferSize - data.length) b.length ≠ 0 := by
          simp only [maxBufferSize, chunkSize] at *
          omega
        rw [dif_neg hcop]
        set copied := min (maxBufferSize - data.length) b.length with hcpd
        have hcop1 : 1 ≤ copied := Nat.one_le_iff_ne_zero.mpr hcop
        have hcople : copied ≤ maxBufferSize - data.length := Nat.min_le_left _ _
        have hcopb : copied ≤ b.length := Nat.min_le_right _ _
        have hd2len : (data ++ b.take copied).length = data.length + copied := by
          rw [List.length_append, List.length_take]
          omega
        have hrest : (b.drop copied).length ≤ n := by
          rw [List.length_drop]
          omega
        by_cases hfl : chunkSize ≤ (data ++ b.take copied).length
        · rw [if_pos hfl]
          have hdrop : ((data ++ b.take copied).drop chunkSize).length ≤ chunkSize := by
            rw [List.length_drop, hd2len]
            simp only [maxBufferSize, chunkSize] at *
            omega
          obtain ⟨hjoin, hsegs, hfin⟩ := ih (b.drop copied) hrest
            ((data ++ b.take copied).drop chunkSize) hdrop
          refine ⟨?_, ?_, hfin⟩
          · rw [List.flatten_cons, List.append_assoc, hjoin, ← List.append_assoc,
              List.take_append_drop, List.append_assoc, List.take_append_drop]
          · intro s hs
            rcases List.mem_cons.mp hs with rfl | hs
            · rw [List.length_take]
              omega
            · exact hsegs s hs
        · rw [if_neg hfl]
          have hd2 : (data ++ b.take copied).length ≤ chunkSize := by omega
          have h := ih (b.drop copied) hrest (data ++ b.take copied) hd2
          rwa [List.append_assoc, List.take_append_drop] at h

theorem runWrites_aux (ws : List (List Nat)) :
    ∀ (segs : List (List Nat)) (pending : List Nat), pending.length ≤ chunkSize →
      (ws.foldl (fun acc w =>
          let q := writeLoop acc.2 w
          (acc.1 ++ q.1, q.2)) (segs, pending)).1.flatten
        ++ (ws.foldl (fun acc w =>
          let q := writeLoop acc.2 w
          (acc.1 ++ q.1, q.2)) (segs, pending)).2
        = segs.flatten ++ pending ++ ws.flatten
      ∧ (∀ s ∈ (ws.foldl (fun acc w =>
          let q := writeLoop acc.2 w
          (acc.1 ++ q.1, q.2)) (segs, pending)).1, s ∈ segs ∨ s.length = chunkSize)
      ∧ (ws.foldl (fun acc w =>
          let q := writeLoop acc.2 w
          (acc.1 ++ q.1, q.2)) (segs, pending)).2.length ≤ chunkSize := by
  induction ws with
  | nil =>
      intro segs pending hp
      simp
      exact ⟨fun s hs => Or.inl hs, hp⟩
  | cons w rest ih =>
      intro segs pending hp
      rw [List.foldl_cons]
      obtain ⟨hjoin, hsegs, hfin⟩ := writeLoop_spec w.length w le_rfl pending hp
      obtain ⟨hjoin2, hsegs2, hfin2⟩ :=
        ih (segs ++ (writeLoop pending w).1) (writeLoop pending w).2 hfin
      refine ⟨?_, ?_, hfin2⟩
      · rw [hjoin2, List.flatten_append, List.flatten_cons]
        rw [List.append_assoc (segs.flatten), hjoin]
        simp [List.append_assoc]
      · intro s hs
        rcases hsegs2 s hs with hs2 | hs2
        · rcases List.mem_append.mp hs2 with hs3 | hs3
          · exact Or.inl hs3
          · exact Or.inr (hsegs s hs3)
        · exact Or.inr hs2

/-- C10: for every sequence of `Write` calls followed by `Close`, the
bytes delivered to the underlying pipe are exactly the concatenation of
the written bytes in order; every flushed segment is exactly
`ChunkSize = 4096` bytes, the buffer flushed by `Close` is at most
`ChunkSize` bytes, and hence every delivered segment except possibly
the final one is exactly `ChunkSize` long. -/
theorem claim_C10_ChunkPipe (ws : List (List Nat)) :
    (chunkPipeDelivered ws).flatten = ws.flatten
    ∧ (∀ s ∈ (runWrites ws).1, s.length = chunkSize)
    ∧ (runWrites ws).2.length ≤ chunkSize
    ∧ (∀ s ∈ (chunkPipeDelivered ws).dropLast, s.length = chunkSize) := by
  obtain ⟨hjoin, hsegs, hfin⟩ := runWrites_aux ws [] [] (by simp [chunkSize])
  have hsegs2 : ∀ s ∈ (runWrites ws).1, s.length = chunkSize := by
    intro s hs
    rcases hsegs s hs with h | h
    · simp at h
    · exact h
  have hjoinR : (runWrites ws).1.flatten ++ (runWrites ws).2 = ws.flatten := by
    simpa [runWrites] using hjoin
  refine ⟨?_, hsegs2, hfin, ?_⟩
  · unfold chunkPipeDelivered closeFlush
    rw [List.flatten_append]
    by_cases hp : (runWrites ws).2.length > 0
    · rw [if_pos hp]
      simpa using hjoinR
    · rw [if_neg hp]
      have hnil : (runWrites ws).2 = [] := by
        simpa using hp
      rw [hnil] at hjoinR
      simpa using hjoinR
  · intro s hs
    unfold chunkPipeDelivered closeFlush at hs
    by_cases hp : (runWrites ws).2.length > 0
    · rw [if_pos hp] at hs
      rw [List.dropLast_concat] at hs
      exact hsegs2 s hs
    · rw [if_neg hp, List.append_nil] at hs
      exact hsegs2 s (List.dropLast_subset _ hs)

/-- C10 witness: two short writes re-chunked — nothing is flushed
before `Close`, and `Close` delivers the concatenation as the single
final segment. -/
theorem claim_C10_witness :
    (chunkPipeDelivered [[1, 2], [3]]).flatten = ([[1, 2], [3]] : List (List Nat)).flatten
    ∧ (∀ s ∈ (runWrites [[1, 2], [3]]).1, s.length = chunkSize)
    ∧ (runWrites [[1, 2], [3]]).2.length ≤ chunkSize
    ∧ (∀ s ∈ (chunkPipeDelivered [[1, 2], [3]]).dropLast, s.length = chunkSize) :=
  claim_C10_ChunkPipe [[1, 2], [3]]

/-! ### Balanced-prefix pseudo-addresses (C8) -/

set_option maxRecDepth 40000

theorem byte_set_spec : ∀ (b : Fin 256) (p q : Fin 8),
    (reverse8 (setBit (reverse8 b.val) p.val)).testBit (7 - q.val)
      = if q.val = p.val then true else b.val.testBit (7 - q.val) := by decide

theorem byte_clear_spec : ∀ (b : Fin 256) (p q : Fin 8),
    (reverse8 (clearBit (reverse8 b.val) p.val)).testBit (7 - q.val)
      = if q.val = p.val then false else b.val.testBit (7 - q.val) := by decide

theorem byte_has_spec : ∀ (b : Fin 256) (p : Fin 8),
    hasBit (reverse8 b.val) p.val = b.val.testBit (7 - p.val) := by decide

theorem hasBit_testBit (n pos : Nat) : hasBit n pos = n.testBit pos := by
  unfold hasBit
  rw [Nat.one_shiftLeft, Nat.and_two_pow]
  cases h : n.testBit pos <;> simp [h, Nat.pos_pow_of_pos]

theorem reverse8_lt (n : Nat) : reverse8 n < 256 := by
  have h256 : (256 : Nat) = 2 ^ 8 := by norm_num
  have key : ∀ (ks : List Nat) (acc : Nat), acc < 256 →
      ks.foldl (fun acc k => if n.testBit k then acc ||| (1 <<< (7 - k)) else acc) acc
        < 256 := by
    intro ks
    induction ks with
    | nil => intro acc h; exact h
    | cons k rest ih =>
        intro acc h
        rw [List.foldl_cons]
        apply ih
        by_cases hb : n.testBit k
        · rw [if_pos hb]
          rw [h256]
          apply Nat.or_lt_two_pow
          · rw [← h256]; exact h
          · rw [Nat.one_shiftLeft]
            have h7 : 7 - k ≤ 7 := by omega
            calc 2 ^ (7 - k) ≤ 2 ^ 7 := Nat.pow_le_pow_right (by omega) h7
              _ < 2 ^ 8 := by norm_num
        · rw [if_neg hb]; exact h
  exact key (List.range 8) 0 (by omega)

theorem getD_set_self (a : List Nat) (i v : Nat) (h : i < a.length) :
    (a.set i v).getD i 0 = v := by
  rw [List.getD_eq_getElem?_getD, List.getElem?_set_self]
  · simp
  · exact h

theorem getD_set_ne (a : List Nat) (i j v : Nat) (h : i ≠ j) :
    (a.set i v).getD j 0 = a.getD j 0 := by
  rw [List.getD_eq_getElem?_getD, List.getElem?_set_ne h, ← List.getD_eq_getElem?_getD]

theorem validBytes_getD (a : List Nat) (ha : validBytes a) (k : Nat) :
    a.getD k 0 < 256 := by
  by_cases h : k < a.length
  · rw [List.getD_eq_getElem a 0 h]
    exact ha _ (List.getElem_mem h)
  · rw [List.getD_eq_default a 0 (by omega)]
    omega

theorem length_setAddrBit (a : List Nat) (l : Nat) :
    (setAddrBit a l).length = a.length := by
  simp [setAddrBit]

theorem length_clearAddrBit (a : List Nat) (l : Nat) :
    (clearAddrBit a l).length = a.length := by
  simp [clearAddrBit]

theorem validBytes_setAddrBit (a : List Nat) (l : Nat) (ha : validBytes a) :
    validBytes (setAddrBit a l) := by
  intro x hx
  unfold setAddrBit at hx
  rcases List.mem_or_eq_of_mem_set hx with hmem | rfl
  · exact ha x hmem
  · exact reverse8_lt _

theorem validBytes_clearAddrBit (a : List Nat) (l : Nat) (ha : validBytes a) :
    validBytes (clearAddrBit a l) := by
  intro x hx
  unfold clearAddrBit at hx
  rcases List.mem_or_eq_of_mem_set hx with hmem | rfl
  · exact ha x hmem
  · exact reverse8_lt _

theorem div8_lt (l len : Nat) (h : l < 8 * len) : l / 8 < len := by
  rw [Nat.div_lt_iff_lt_mul (by omega : 0 < 8)]
  omega

theorem addrBit_setAddrBit (a : List Nat) (l q : Nat) (ha : validBytes a)
    (hl : l < 8 * a.length) (hq : q < 8 * a.length) :
    addrBit (setAddrBit a l) q = if q = l then true else addrBit a q := by
  have e1 := Nat.div_add_mod q 8
  have e2 := Nat.div_add_mod l 8
  unfold addrBit setAddrBit
  by_cases hbyte : q / 8 = l / 8
  · rw [hbyte, getD_set_self _ _ _ (div8_lt l a.length hl)]
    have hb : a.getD (l / 8) 0 < 256 := validBytes_getD a ha _
    have hby := byte_set_spec ⟨a.getD (l / 8) 0, hb⟩
      ⟨l % 8, Nat.mod_lt _ (by omega)⟩ ⟨q % 8, Nat.mod_lt _ (by omega)⟩
    simp only [Fin.val_mk] at hby
    rw [hby]
    by_cases hm : q % 8 = l % 8
    · rw [if_pos hm, if_pos (by omega)]
    · rw [if_neg hm, if_neg (by omega)]
  · rw [getD_set_ne _ _ _ _ (fun he => hbyte he.symm)]
    rw [if_neg (by omega)]

theorem addrBit_clearAddrBit (a : List Nat) (l q : Nat) (ha : validBytes a)
    (hl : l < 8 * a.length) (hq : q < 8 * a.length) :
    addrBit (clearAddrBit a l) q = if q = l then false else addrBit a q := by
  have e1 := Nat.div_add_mod q 8
  have e2 := Nat.div_add_mod l 8
  unfold addrBit clearAddrBit
  by_cases hbyte : q / 8 = l / 8
  · rw [hbyte, getD_set_self _ _ _ (div8_lt l a.length hl)]
    have hb : a.getD (l / 8) 0 < 256 := validBytes_getD a ha _
    have hby := byte_clear_spec ⟨a.getD (l / 8) 0, hb⟩
      ⟨l % 8, Nat.mod_lt _ (by omega)⟩ ⟨q % 8, Nat.mod_lt _ (by omega)⟩
    simp only [Fin.val_mk] at hby
    rw [hby]
    by_cases hm : q % 8 = l % 8
    · rw [if_pos hm, if_pos (by omega)]
    · rw [if_neg hm, if_neg (by omega)]
  · rw [getD_set_ne _ _ _ _ (fun he => hbyte he.symm)]
    rw [if_neg (by omega)]

theorem addrBit_flipAddrBit (a : List Nat) (i q : Nat) (ha : validBytes a)
    (hi : i < 8 * a.length) (hq : q < 8 * a.length) :
    addrBit (flipAddrBit a i) q = if q = i then !(addrBit a i) else addrBit a q := by
  have hb : a.getD (i / 8) 0 < 256 := validBytes_getD a ha _
  have hhas : hasBit (reverse8 (a.getD (i / 8) 0)) (i % 8) = addrBit a i := by
    have hby := byte_has_spec ⟨a.getD (i / 8) 0, hb⟩ ⟨i % 8, Nat.mod_lt _ (by omega)⟩
    simp only [Fin.val_mk] at hby
    rw [hby]
    rfl
  unfold flipAddrBit
  rw [hhas]
  cases hcase : addrBit a i with
  | true =>
      rw [if_pos rfl, addrBit_clearAddrBit a i q ha hi hq]
      simp
  | false =>
      rw [if_neg (by simp), addrBit_setAddrBit a i q ha hi hq]
      simp

theorem length_flipAddrBit (a : List Nat) (i : Nat) :
    (flipAddrBit a i).length = a.length := by
  unfold flipAddrBit
  split
  · exact length_clearAddrBit a i
  · exact length_setAddrBit a i

theorem validBytes_flipAddrBit (a : List Nat) (i : Nat) (ha : validBytes a) :
    validBytes (flipAddrBit a i) := by
  unfold flipAddrBit
  split
  · exact validBytes_clearAddrBit a i ha
  · exact validBytes_setAddrBit a i ha

theorem foldl_assign_spec (v : Nat → Bool) (n : Nat) :
    ∀ (s : Nat) (a : List Nat), validBytes a → s + n ≤ 8 * a.length →
      ((List.range' s n).foldl
          (fun a l => if v l then setAddrBit a l else clearAddrBit a l) a).length
        = a.length
      ∧ validBytes ((List.range' s n).foldl
          (fun a l => if v l then setAddrBit a l else clearAddrBit a l) a)
      ∧ ∀ q, q < 8 * a.length →
          addrBit ((List.range' s n).foldl
            (fun a l => if v l then setAddrBit a l else clearAddrBit a l) a) q
            = if s ≤ q ∧ q < s + n then v q else addrBit a q := by
  induction n with
  | zero =>
      intro s a ha _
      refine ⟨rfl, ha, ?_⟩
      intro q _
      rw [List.range'_zero, List.foldl_nil, if_neg (by omega)]
  | succ n ih =>
      intro s a ha hs
      rw [List.range'_succ, List.foldl_cons]
      have hs8 : s < 8 * a.length := by omega
      have hlen1 : (if v s then setAddrBit a s else clearAddrBit a s).length = a.length := by
        split
        · exact length_setAddrBit a s
        · exact length_clearAddrBit a s
      have hval1 : validBytes (if v s then setAddrBit a s else clearAddrBit a s) := by
        split
        · exact validBytes_setAddrBit a s ha
        · exact validBytes_clearAddrBit a s ha
      obtain ⟨hl2, hv2, hbit2⟩ := ih (s + 1) (if v s then setAddrBit a s else clearAddrBit a s)
        hval1 (by rw [hlen1]; omega)
      refine ⟨by rw [hl2, hlen1], hv2, ?_⟩
      intro q hq
      rw [hbit2 q (by rw [hlen1]; exact hq)]
      have hbit1 : addrBit (if v s then setAddrBit a s else clearAddrBit a s) q
          = if q = s then v s else addrBit a q := by
        cases hv : v s with
        | true =>
            rw [if_pos rfl] at *
            rw [addrBit_setAddrBit a s q ha hs8 hq]
        | false =>
            rw [if_neg (by simp)]
            rw [addrBit_clearAddrBit a s q ha hs8 hq]
      by_cases h1 : s + 1 ≤ q ∧ q < s + 1 + n
      · rw [if_pos h1, if_pos (by omega)]
      · rw [if_neg h1, hbit1]
        by_cases h2 : q = s
        · rw [if_pos h2, if_pos (by omega), h2]
        · rw [if_neg h2, if_neg (by omega)]

theorem setSuffixBits_spec (bsl i j : Nat) (a : List Nat) (ha : validBytes a)
    (hs : i + 1 + bsl ≤ 8 * a.length) :
    (setSuffixBits bsl i j a).length = a.length
    ∧ validBytes (setSuffixBits bsl i j a)
    ∧ ∀ q, q < 8 * a.length →
        addrBit (setSuffixBits bsl i j a) q
          = if i + 1 ≤ q ∧ q < i + 1 + bsl then hasBit j (bsl - 1 - (q - (i + 1)))
            else addrBit a q := by
  have h := foldl_assign_spec (fun l => hasBit j (bsl - 1 - (l - (i + 1)))) bsl (i + 1)
    a ha hs
  exact h

theorem clearRestBits_spec (bsl i : Nat) (a : List Nat) (ha : validBytes a)
    (hle : i + bsl + 1 ≤ 8 * a.length) :
    (clearRestBits bsl i a).length = a.length
    ∧ validBytes (clearRestBits bsl i a)
    ∧ ∀ q, q < 8 * a.length →
        addrBit (clearRestBits bsl i a) q
          = if i + bsl + 1 ≤ q then false else addrBit a q := by
  have heq : (fun (a : List Nat) (l : Nat) => clearAddrBit a l)
      = fun (a : List Nat) (l : Nat) =>
          if (fun _ => false) l then setAddrBit a l else clearAddrBit a l := by
    funext a l
    simp
  unfold clearRestBits
  rw [heq]
  obtain ⟨hl, hv, hbit⟩ := foldl_assign_spec (fun _ => false)
    (a.length * 8 - (i + bsl + 1)) (i + bsl + 1) a ha (by omega)
  refine ⟨hl, hv, ?_⟩
  intro q hq
  rw [hbit q hq]
  by_cases h1 : i + bsl + 1 ≤ q
  · rw [if_pos (by omega), if_pos h1]
  · rw [if_neg (by omega), if_neg h1]

theorem matchLen_eq_firstDiff (x y : List Nat) (i : Nat) :
    ∀ (fuel k : Nat), k ≤ i → i - k < fuel →
      (∀ q, k ≤ q → q < i → addrBit x q = addrBit y q) →
      addrBit x i ≠ addrBit y i →
      matchLen x y k fuel = i := by
  intro fuel
  induction fuel with
  | zero =>
      intro k hk hfuel _ _
      omega
  | succ fuel ih =>
      intro k hk hfuel hmatch hdiff
      by_cases hki : k = i
      · subst hki
        unfold matchLen
        rw [if_neg hdiff]
      · have hlt : k < i := by omega
        unfold matchLen
        rw [if_pos (hmatch k le_rfl hlt)]
        exact ih (k + 1) (by omega) (by omega)
          (fun q hq1 hq2 => hmatch q (by omega) hq2) hdiff

/-- C8: for every bin `i` below `MaxPO` and every enumeration index
`j < 2^bitSuffixLength`, the generated pseudo-address
`commonBinPrefixes[i][j]` equals the node's base address with bit `i`
flipped, the next `bitSuffixLength` bits set to the binary encoding of
`j` (most-significant bit first), and all remaining lower-order bits
cleared to zero; in particular its proximity order with the base
address is exactly `i`. -/
theorem claim_C8_commonBinPseudoAddr (base : List Nat) (bsl i j : Nat)
    (hlen : base.length = 32) (hvalid : validBytes base)
    (hi : i < maxPO) (hbsl : i + bsl + 1 ≤ 256) (hj : j < 2 ^ bsl) :
    (∀ q, q < 256 →
      addrBit (commonBinPseudoAddr bsl base i j) q
        = if q < i then addrBit base q
          else if q = i then !(addrBit base i)
          else if q < i + bsl + 1 then j.testBit (i + bsl - q)
          else false)
    ∧ proximity (commonBinPseudoAddr bsl base i j) base = i := by
  have hi256 : i < 256 := by
    simp [maxPO] at hi
    omega
  have hlen1 : (flipAddrBit base i).length = 32 := by
    rw [length_flipAddrBit, hlen]
  have hval1 : validBytes (flipAddrBit base i) := validBytes_flipAddrBit base i hvalid
  obtain ⟨hlen2, hval2, hbit2⟩ := setSuffixBits_spec bsl i j (flipAddrBit base i) hval1
    (by rw [hlen1]; omega)
  obtain ⟨hlen3, hval3, hbit3⟩ := clearRestBits_spec bsl i
    (setSuffixBits bsl i j (flipAddrBit base i)) hval2 (by rw [hlen2, hlen1]; omega)
  have hchar : ∀ q, q < 256 →
      addrBit (commonBinPseudoAddr bsl base i j) q
        = if q < i then addrBit base q
          else if q = i then !(addrBit base i)
          else if q < i + bsl + 1 then j.testBit (i + bsl - q)
          else false := by
    intro q hq
    have hq2 : q < 8 * (setSuffixBits bsl i j (flipAddrBit base i)).length := by
      rw [hlen2, hlen1]
      omega
    unfold commonBinPseudoAddr
    rw [hbit3 q hq2]
    by_cases hrest : i + bsl + 1 ≤ q
    · rw [if_pos hrest, if_neg (by omega), if_neg (by omega), if_neg (by omega)]
    · rw [if_neg hrest]
      rw [hbit2 q (by rw [hlen1]; omega)]
      by_cases hsuf : i + 1 ≤ q ∧ q < i + 1 + bsl
      · rw [if_pos hsuf, if_neg (by omega), if_neg (by omega), if_pos (by omega)]
        rw [hasBit_testBit]
        congr 1
        omega
      · rw [if_neg hsuf]
        rw [addrBit_flipAddrBit base i q hvalid (by rw [hlen]; omega) (by rw [hlen]; omega)]
        by_cases hqi : q = i
        · rw [if_pos hqi, if_neg (by omega), if_pos hqi]
        · rw [if_neg hqi, if_pos (by omega)]
  refine ⟨hchar, ?_⟩
  unfold proximity
  have hml : matchLen (commonBinPseudoAddr bsl base i j) base 0 256 = i := by
    apply matchLen_eq_firstDiff _ _ i 256 0 (by omega) (by omega)
    · intro q _ hqi
      rw [hchar q (by omega), if_pos hqi]
    · rw [hchar i (by omega), if_neg (by omega), if_pos rfl]
      cases addrBit base i <;> simp
  rw [hml]
  exact Nat.min_eq_right (by omega)

/-- C8 witness: base address of bytes `0xAA`, bin 5, suffix index 1 —
the pseudo-address characterization and the proximity value instantiate
to the concrete first byte `0xAD` and proximity 5. -/
theorem claim_C8_witness :
    ((List.replicate 32 170 : List Nat).length = 32
      ∧ validBytes (List.replicate 32 170)
      ∧ 5 < maxPO ∧ 5 + 2 + 1 ≤ 256 ∧ 1 < 2 ^ 2)
    ∧ ((∀ q, q < 256 →
        addrBit (commonBinPseudoAddr 2 (List.replicate 32 170) 5 1) q
          = if q < 5 then addrBit (List.replicate 32 170) q
            else if q = 5 then !(addrBit (List.replicate 32 170) 5)
            else if q < 5 + 2 + 1 then Nat.testBit 1 (5 + 2 - q)
            else false)
      ∧ proximity (commonBinPseudoAddr 2 (List.replicate 32 170) 5 1)
          (List.replicate 32 170) = 5) :=
  ⟨⟨by decide,
      by intro x hx; rw [List.eq_of_mem_replicate hx]; omega,
      by decide, by decide, by decide⟩,
    claim_C8_commonBinPseudoAddr (List.replicate 32 170) 2 5 1 (by decide)
      (by intro x hx; rw [List.eq_of_mem_replicate hx]; omega)
      (by decide) (by decide) (by decide)⟩

end Voyager
